import Mathlib

/-!
# Bit-reversal reordering (CMSIS-DSP `arm_bitreversal2`)

A shallow embedding of `arm_bitreversal_64`, `arm_bitreversal_32` and
`arm_bitreversal_16` from
`CMSIS/DSP/Source/TransformFunctions/arm_bitreversal2_asm.c`, and theorems about them.

Conventions of the embedding.

* A buffer is a `List Nat` of elements, a table a `List Nat` of 16-bit entries.
* Every function returns an `Option`: `none` stands for a run that leaves defined
  behaviour (an access outside the buffer or the table, an access the memory model does
  not allow) or, for the fuel-driven loops, for fuel that ran out.  The fuel handed to
  each loop is an upper bound of its iteration count, so the second case never occurs.
* 32-bit registers hold naturals below `2 ^ 32`; arithmetic that can wrap is reduced
  modulo `2 ^ 32` explicitly.
-/

namespace BitReversal

/-! ## Memory accesses of the C code -/

/-- Read `buf[i]`; `none` when `i` is outside the object. -/
def rd (buf : List Nat) (i : Nat) : Option Nat := buf[i]?

/-- Write `buf[i] = v`; `none` when `i` is outside the object. -/
def wr (buf : List Nat) (i v : Nat) : Option (List Nat) :=
  if i < buf.length then some (buf.set i v) else none

/-! ## `arm_bitreversal_64` (C code) -/

/-- One pass through the body of the `for` loop of `arm_bitreversal_64`, at table
index `i`, statement by statement. -/
def arm_bitreversal_64_body (pSrc pBitRevTab : List Nat) (i : Nat) : Option (List Nat) := do
  let a := (← rd pBitRevTab i) >>> 2
  let b := (← rd pBitRevTab (i + 1)) >>> 2
  -- real
  let tmp ← rd pSrc a
  let pSrc ← wr pSrc a (← rd pSrc b)
  let pSrc ← wr pSrc b tmp
  -- complex
  let tmp ← rd pSrc (a + 1)
  let pSrc ← wr pSrc (a + 1) (← rd pSrc (b + 1))
  wr pSrc (b + 1) tmp

/-- The loop `for (i = 0; i < bitRevLen; ) { body; i += 2; }`, entered at `i`. -/
def arm_bitreversal_64_loop (bitRevLen : Nat) (pBitRevTab : List Nat) :
    Nat → Nat → List Nat → Option (List Nat)
  | 0, i, pSrc => if i < bitRevLen then none else some pSrc
  | fuel + 1, i, pSrc =>
    if i < bitRevLen then
      (arm_bitreversal_64_body pSrc pBitRevTab i).bind
        (arm_bitreversal_64_loop bitRevLen pBitRevTab fuel (i + 2))
    else some pSrc

/-- The function `arm_bitreversal_64(pSrc, bitRevLen, pBitRevTab)`: the final buffer.
`i` grows by 2 per iteration, so `bitRevLen` iterations of fuel are never used up. -/
def arm_bitreversal_64 (pSrc : List Nat) (bitRevLen : Nat) (pBitRevTab : List Nat) :
    Option (List Nat) :=
  arm_bitreversal_64_loop bitRevLen pBitRevTab bitRevLen 0 pSrc

/-! ## Memory accesses of the assembly code

Pointers are kept as byte offsets from the start of the object they point into: the
table pointer `%1` as an offset from `pBitRevTab`, the data pointers (`%0` plus a
table value) as offsets from `pSrc`.  A load or store of a 32-bit word has to be
word-aligned and inside the buffer, a load of a halfword of the table has to be
halfword-aligned and inside the table; every other access is `none`. -/

/-- Instruction `LDRH rd,[%1,#k]`: the table halfword at byte offset `off`. -/
def ldrh (tab : List Nat) (off : Nat) : Option Nat :=
  if off % 2 = 0 then tab[off / 2]? else none

/-- Instruction `LDR rd,[rn,#k]` on a buffer of 32-bit elements, `off` the byte offset
from `pSrc`. -/
def ldr32 (mem : List Nat) (off : Nat) : Option Nat :=
  if off % 4 = 0 then mem[off / 4]? else none

/-- Instruction `STR rd,[rn,#k]` on a buffer of 32-bit elements. -/
def str32 (mem : List Nat) (off v : Nat) : Option (List Nat) :=
  if off % 4 = 0 then wr mem (off / 4) v else none

/-- Instruction `LDR rd,[rn,#k]` on a buffer of 16-bit elements (little-endian): the word
is made of the two elements at byte offsets `off` and `off + 2`. -/
def ldr16 (mem : List Nat) (off : Nat) : Option Nat :=
  if off % 4 = 0 then do
    let lo ← mem[off / 2]?
    let hi ← mem[off / 2 + 1]?
    some (lo + 65536 * hi)
  else none

/-- Instruction `STR rd,[rn,#k]` on a buffer of 16-bit elements (little-endian). -/
def str16 (mem : List Nat) (off v : Nat) : Option (List Nat) :=
  if off % 4 = 0 then do
    let mem ← wr mem (off / 2) (v % 65536)
    wr mem (off / 2 + 1) (v / 65536 % 65536)
  else none

/-- The loop skeleton shared by the four assembly blocks,
`label: body; ADDS %1,%1,#stride; SUBS r3,r3,#1; BNE label`: the body runs before the
counter `r3` is decremented modulo `2 ^ 32` and tested.  `r1` is the table pointer `%1`.
A counter of 32 bits returns to zero within `2 ^ 32` iterations, the fuel the callers
pass. -/
def asmLoop (body : List Nat → Nat → Option (List Nat)) (stride : Nat) :
    Nat → Nat → Nat → List Nat → Option (List Nat)
  | 0, _, _, _ => none
  | fuel + 1, r1, r3, mem =>
    (body mem r1).bind fun mem =>
      let r1 := r1 + stride
      let r3 := (r3 + 2 ^ 32 - 1) % 2 ^ 32
      if r3 ≠ 0 then asmLoop body stride fuel r1 r3 mem else some mem
termination_by structural fuel => fuel

/-! ## `arm_bitreversal_32` (inline assembly) -/

/-- The eight loads and stores of the default path of `arm_bitreversal_32` that move
the words at offset `k` from the four data pointers (source lines 133-140 for `k = 0`,
141-148 for `k = 4`). -/
def arm_bitreversal_32_words (mem : List Nat) (r9 r8 r2 r12 k : Nat) : Option (List Nat) := do
  let r7 ← ldr32 mem (r9 + k)
  let r6 ← ldr32 mem (r8 + k)
  let r5 ← ldr32 mem (r2 + k)
  let r4 ← ldr32 mem (r12 + k)
  let mem ← str32 mem (r9 + k) r6
  let mem ← str32 mem (r8 + k) r7
  let mem ← str32 mem (r12 + k) r5
  str32 mem (r2 + k) r4

/-- Loop body of the default path of `arm_bitreversal_32` (source lines 125-148); the
four `ADD rX,%0,rX` leave the byte offsets as they are. -/
def arm_bitreversal_32_body (pBitRevTab : List Nat) (mem : List Nat) (r1 : Nat) :
    Option (List Nat) := do
  let r8 ← ldrh pBitRevTab (r1 + 4)
  let r9 ← ldrh pBitRevTab (r1 + 2)
  let r2 ← ldrh pBitRevTab (r1 + 0)
  let r12 ← ldrh pBitRevTab (r1 - 2)
  let mem ← arm_bitreversal_32_words mem r9 r8 r2 r12 0
  arm_bitreversal_32_words mem r9 r8 r2 r12 4

/-- Default path of `arm_bitreversal_32` (the `#else` branch): the guard on
`bitRevLen`, then `ADDS r3,%1,#1; ADDS %1,%2,#2; LSRS r3,r3,#2` and the loop. -/
def arm_bitreversal_32 (pSrc : List Nat) (bitRevLen : Nat) (pBitRevTab : List Nat) :
    Option (List Nat) :=
  if 0 = bitRevLen then some pSrc
  else
    let r3 := (bitRevLen + 1) % 2 ^ 32
    let r1 := 2
    let r3 := r3 >>> 2
    asmLoop (arm_bitreversal_32_body pBitRevTab) 8 (2 ^ 32) r1 r3 pSrc

/-- The four loads and stores of the ARMv6-M / ARMv8-M Baseline path of
`arm_bitreversal_32` that exchange the words at offset `k` (source lines 95-98 for
`k = 0`, 99-102 for `k = 4`). -/
def arm_bitreversal_32_baseline_words (mem : List Nat) (r2 r6 k : Nat) : Option (List Nat) := do
  let r5 ← ldr32 mem (r2 + k)
  let r4 ← ldr32 mem (r6 + k)
  let mem ← str32 mem (r6 + k) r5
  str32 mem (r2 + k) r4

/-- Loop body of the ARMv6-M / ARMv8-M Baseline path of `arm_bitreversal_32` (source
lines 91-102). -/
def arm_bitreversal_32_baseline_body (pBitRevTab : List Nat) (mem : List Nat) (r1 : Nat) :
    Option (List Nat) := do
  let r2 ← ldrh pBitRevTab (r1 + 2)
  let r6 ← ldrh pBitRevTab (r1 + 0)
  let mem ← arm_bitreversal_32_baseline_words mem r2 r6 0
  arm_bitreversal_32_baseline_words mem r2 r6 4

/-- ARMv6-M / ARMv8-M Baseline path of `arm_bitreversal_32`:
`ADDS r3,%1,#1; ADDS %1,%2,#0; LSRS r3,r3,#1` and the loop; there is no guard. -/
def arm_bitreversal_32_baseline (pSrc : List Nat) (bitRevLen : Nat) (pBitRevTab : List Nat) :
    Option (List Nat) :=
  let r3 := (bitRevLen + 1) % 2 ^ 32
  let r1 := 0
  let r3 := r3 >>> 1
  asmLoop (arm_bitreversal_32_baseline_body pBitRevTab) 4 (2 ^ 32) r1 r3 pSrc

/-! ## `arm_bitreversal_16` (inline assembly) -/

/-- The eight loads and stores of the default path of `arm_bitreversal_16` (source
lines 222-229). -/
def arm_bitreversal_16_words (mem : List Nat) (r9 r8 r2 r12 : Nat) : Option (List Nat) := do
  let r7 ← ldr16 mem (r9 + 0)
  let r6 ← ldr16 mem (r8 + 0)
  let r5 ← ldr16 mem (r2 + 0)
  let r4 ← ldr16 mem (r12 + 0)
  let mem ← str16 mem (r9 + 0) r6
  let mem ← str16 mem (r8 + 0) r7
  let mem ← str16 mem (r12 + 0) r5
  str16 mem (r2 + 0) r4

/-- Loop body of the default path of `arm_bitreversal_16` (source lines 214-229); the
four `ADD rX,%0,rX,LSR #1` halve the table value. -/
def arm_bitreversal_16_body (pBitRevTab : List Nat) (mem : List Nat) (r1 : Nat) :
    Option (List Nat) := do
  let r8 ← ldrh pBitRevTab (r1 + 4)
  let r9 ← ldrh pBitRevTab (r1 + 2)
  let r2 ← ldrh pBitRevTab (r1 + 0)
  let r12 ← ldrh pBitRevTab (r1 - 2)
  arm_bitreversal_16_words mem (r9 >>> 1) (r8 >>> 1) (r2 >>> 1) (r12 >>> 1)

/-- Default path of `arm_bitreversal_16` (the `#else` branch). -/
def arm_bitreversal_16 (pSrc : List Nat) (bitRevLen : Nat) (pBitRevTab : List Nat) :
    Option (List Nat) :=
  if 0 = bitRevLen then some pSrc
  else
    let r3 := (bitRevLen + 1) % 2 ^ 32
    let r1 := 2
    let r3 := r3 >>> 2
    asmLoop (arm_bitreversal_16_body pBitRevTab) 8 (2 ^ 32) r1 r3 pSrc

/-- Loop body of the ARMv8-M Baseline path of `arm_bitreversal_16` (source lines
183-192). -/
def arm_bitreversal_16_baseline_body (pBitRevTab : List Nat) (mem : List Nat) (r1 : Nat) :
    Option (List Nat) := do
  let r2 ← ldrh pBitRevTab (r1 + 2)
  let r6 ← ldrh pBitRevTab (r1 + 0)
  let r2 := r2 >>> 1
  let r6 := r6 >>> 1
  let r5 ← ldr16 mem (r2 + 0)
  let r4 ← ldr16 mem (r6 + 0)
  let mem ← str16 mem (r6 + 0) r5
  str16 mem (r2 + 0) r4

/-- ARMv8-M Baseline path of `arm_bitreversal_16`; there is no guard. -/
def arm_bitreversal_16_baseline (pSrc : List Nat) (bitRevLen : Nat) (pBitRevTab : List Nat) :
    Option (List Nat) :=
  let r3 := (bitRevLen + 1) % 2 ^ 32
  let r1 := 0
  let r3 := r3 >>> 1
  asmLoop (arm_bitreversal_16_baseline_body pBitRevTab) 4 (2 ^ 32) r1 r3 pSrc

/-! ## The pair-by-pair algorithm of the specification -/

/-- Exchange of the elements `buf[a]` and `buf[b]`; a buffer that lacks one of the two
positions is returned as it is. -/
def exchange (buf : List Nat) (a b : Nat) : List Nat :=
  match buf[a]?, buf[b]? with
  | some x, some y => (buf.set a y).set b x
  | _, _ => buf

/-- Processing of one pair with element indices `a` and `b`: exchange `buf[a]` with
`buf[b]`, then `buf[a+1]` with `buf[b+1]`. -/
def exchangePair (buf : List Nat) (a b : Nat) : List Nat :=
  exchange (exchange buf a b) (a + 1) (b + 1)

/-- Processing of the pairs `(t[0], t[1]), (t[2], t[3]), ...` of a table `t` in that
order, `idx` turning a raw table value into an element index.  A last entry without a
partner is not processed. -/
def exchangePairs (idx : Nat → Nat) : List Nat → List Nat → List Nat
  | rawA :: rawB :: rest, buf => exchangePairs idx rest (exchangePair buf (idx rawA) (idx rawB))
  | _, buf => buf

/-- Normalisation of a raw table value in the 64-bit variant: `raw >> 2`. -/
def idx64 (raw : Nat) : Nat := raw >>> 2

/-- Element index of the 32-bit word that `arm_bitreversal_32` addresses with the raw
table value `raw`, a byte offset from `pSrc`. -/
def idx32 (raw : Nat) : Nat := raw / 4

/-- Element index of the first of the two 16-bit elements that `arm_bitreversal_16`
addresses with the raw table value `raw`: the byte offset is `raw >> 1`, an element has
two bytes. -/
def idx16 (raw : Nat) : Nat := (raw >>> 1) / 2

/-- The two-element blocks `{x, x+1}` and `{y, y+1}` have no element in common. -/
def BlockDisj (x y : Nat) : Prop := x + 1 < y ∨ y + 1 < x

instance (x y : Nat) : Decidable (BlockDisj x y) := by
  unfold BlockDisj
  infer_instance

/-- Reversal of the `n` low bits of `i`. -/
def bitrev : Nat → Nat → Nat
  | 0, _ => 0
  | n + 1, i => (i % 2) * 2 ^ n + bitrev n (i / 2)

/-- The pair at position `p` of a table, as element indices of the 64-bit variant. -/
def pair64 (tab : List Nat) (p : Nat) : Nat × Nat :=
  (idx64 (tab.getD (2 * p) 0), idx64 (tab.getD (2 * p + 1) 0))

/-- The pair at position `p` of the table exchanges the samples `i` and `bitrev n i`, in
one of the two orders. -/
def ListsPair (n : Nat) (tab : List Nat) (p i : Nat) : Prop :=
  pair64 tab p = (2 * i, 2 * bitrev n i) ∨ pair64 tab p = (2 * bitrev n i, 2 * i)

instance (n : Nat) (tab : List Nat) (p i : Nat) : Decidable (ListsPair n tab p i) := by
  unfold ListsPair
  infer_instance

/-! ## Readings of the table in the specification text

The text of the specification reads the raw table values of the 32-bit and the 16-bit
variant differently from the code; the two readings are written down here to be compared
with the code. -/

/-- The 32-bit variant as the specification words it: the raw value is the index of a
complex sample, whose real component is element `2 * raw`. -/
def specIdx32 (raw : Nat) : Nat := 2 * raw

/-- The 16-bit variant as the specification words it: one exchange of the single
elements `buf[rawA >> 1]` and `buf[rawB >> 1]` per pair. -/
def specScalar16 : List Nat → List Nat → List Nat
  | rawA :: rawB :: rest, buf => specScalar16 rest (exchange buf (rawA >>> 1) (rawB >>> 1))
  | _, buf => buf


/-! ## Notions used to state the behaviour of the loops -/

/-- The two objects after a call of `arm_bitreversal_64`: the function stores through
`pSrc` only, `pBitRevTab` points to `const` data that is only read, so the table after
the call is the table that was passed. -/
def arm_bitreversal_64_objects (pSrc : List Nat) (bitRevLen : Nat) (pBitRevTab : List Nat) :
    Option (List Nat × List Nat) :=
  (arm_bitreversal_64 pSrc bitRevLen pBitRevTab).map fun buf => (buf, pBitRevTab)

/-- The composition of `n` passes of a loop body, one after the other, the table pointer
advancing by `stride` from pass to pass. -/
def passes (body : List Nat → Nat → Option (List Nat)) (stride : Nat) :
    Nat → Nat → List Nat → Option (List Nat)
  | 0, _, mem => some mem
  | n + 1, r1, mem => (body mem r1).bind (passes body stride n (r1 + stride))

/-- Number of passes of a do-while loop whose 32-bit counter is `r3` on entry, is
decremented after the body and ends the loop when it reaches zero. -/
def passCount (r3 : Nat) : Nat := if r3 = 0 then 2 ^ 32 else r3

/-- A loop body that touches no memory and records the table pointer of its pass. -/
def recordPass (trace : List Nat) (r1 : Nat) : Option (List Nat) := some (trace ++ [r1])

/-- The pairs `(t[0], t[1]), (t[2], t[3]), ...` of raw values of a table. -/
def rawPairs : List Nat → List (Nat × Nat)
  | rawA :: rawB :: rest => (rawA, rawB) :: rawPairs rest
  | _ => []

/-- The table `t₂` is obtained from the table `t₁` by reordering its pairs and by
exchanging the two entries inside some of the pairs. -/
def Rearranged (t₁ t₂ : List Nat) : Prop :=
  ∃ l, (rawPairs t₁).Perm l ∧ List.Forall₂ (fun p q => q = p ∨ q = (p.2, p.1)) l (rawPairs t₂)

/-- The blocks of the two entries of the pair `p` are disjoint from the blocks of the two
entries of the pair `q`, `idx` turning a raw table value into an element index. -/
def PairDisj (idx : Nat → Nat) (p q : Nat × Nat) : Prop :=
  BlockDisj (idx p.1) (idx q.1) ∧ BlockDisj (idx p.1) (idx q.2) ∧
  BlockDisj (idx p.2) (idx q.1) ∧ BlockDisj (idx p.2) (idx q.2)

/-! ## Basic facts on `exchange` -/

theorem exchange_length (buf : List Nat) (a b : Nat) :
    (exchange buf a b).length = buf.length := by
  unfold exchange
  split <;> simp

theorem exchangePair_length (buf : List Nat) (a b : Nat) :
    (exchangePair buf a b).length = buf.length := by
  simp [exchangePair, exchange_length]

theorem exchangePairs_nil (idx : Nat → Nat) (buf : List Nat) :
    exchangePairs idx [] buf = buf := by
  simp [exchangePairs]

theorem exchangePairs_cons_cons (idx : Nat → Nat) (rawA rawB : Nat) (rest buf : List Nat) :
    exchangePairs idx (rawA :: rawB :: rest) buf
      = exchangePairs idx rest (exchangePair buf (idx rawA) (idx rawB)) := by
  simp [exchangePairs]

theorem exchangePairs_length (idx : Nat → Nat) (t buf : List Nat) :
    (exchangePairs idx t buf).length = buf.length := by
  induction t, buf using exchangePairs.induct idx with
  | case1 rawA rawB rest buf ih => simp [exchangePairs, ih, exchangePair_length]
  | case2 t buf h =>
    unfold exchangePairs
    split
    · exact absurd rfl (h _ _ _)
    · rfl

theorem exchange_of_lt {buf : List Nat} {a b : Nat} (ha : a < buf.length)
    (hb : b < buf.length) : exchange buf a b = (buf.set a buf[b]).set b buf[a] := by
  simp [exchange, List.getElem?_eq_getElem ha, List.getElem?_eq_getElem hb]

/-- Element-wise description of an exchange inside the buffer. -/
theorem exchange_getElem? {buf : List Nat} {a b : Nat} (ha : a < buf.length)
    (hb : b < buf.length) (j : Nat) :
    (exchange buf a b)[j]? = if j = b then buf[a]? else if j = a then buf[b]? else buf[j]? := by
  rw [exchange_of_lt ha hb, List.getElem?_set, List.getElem?_set]
  by_cases h1 : b = j
  · subst h1; simp [ha, hb]
  · by_cases h2 : a = j
    · subst h2; simp [h1, ha, hb, Ne.symm h1]
    · simp [h1, h2, Ne.symm h1, Ne.symm h2]

/-! ## The C loop computes the pair-by-pair algorithm -/

theorem arm_bitreversal_64_body_eq {pSrc tab : List Nat} {i : Nat} (hi : i + 1 < tab.length)
    (ha : idx64 (tab.getD i 0) + 1 < pSrc.length)
    (hb : idx64 (tab.getD (i + 1) 0) + 1 < pSrc.length) :
    arm_bitreversal_64_body pSrc tab i
      = some (exchangePair pSrc (idx64 (tab.getD i 0)) (idx64 (tab.getD (i + 1) 0))) := by
  have hi0 : i < tab.length := by omega
  simp only [List.getD_eq_getElem?_getD, List.getElem?_eq_getElem hi,
    List.getElem?_eq_getElem hi0, Option.getD_some, idx64] at ha hb ⊢
  have ha0 : tab[i] >>> 2 < pSrc.length := by omega
  have hb0 : tab[i + 1] >>> 2 < pSrc.length := by omega
  simp [arm_bitreversal_64_body, rd, wr, exchangePair, exchange_of_lt, exchange_length,
    List.getElem?_eq_getElem, hi, hi0, ha, hb, ha0, hb0]



/-! ## Exchanges at different places commute -/

theorem exchange_getElem?_of_ne (buf : List Nat) {a b j : Nat} (ha : j ≠ a) (hb : j ≠ b) :
    (exchange buf a b)[j]? = buf[j]? := by
  unfold exchange
  split
  · rw [List.getElem?_set_ne (Ne.symm hb), List.getElem?_set_ne (Ne.symm ha)]
  · rfl

theorem exchange_symm {buf : List Nat} {a b : Nat} (ha : a < buf.length)
    (hb : b < buf.length) : exchange buf a b = exchange buf b a := by
  apply List.ext_getElem?
  intro j
  rw [exchange_getElem? ha hb, exchange_getElem? hb ha]
  split_ifs <;> simp_all

theorem exchange_self_inv {buf : List Nat} {a b : Nat} (ha : a < buf.length)
    (hb : b < buf.length) : exchange (exchange buf a b) a b = buf := by
  apply List.ext_getElem?
  intro j
  rw [exchange_getElem? (by rwa [exchange_length]) (by rwa [exchange_length])]
  simp only [exchange_getElem? ha hb]
  split_ifs <;> simp_all

theorem exchange_comm {l : List Nat} {a b c d : Nat} (ha : a < l.length)
    (hb : b < l.length) (hc : c < l.length) (hd : d < l.length)
    (hac : a ≠ c) (had : a ≠ d) (hbc : b ≠ c) (hbd : b ≠ d) :
    exchange (exchange l a b) c d = exchange (exchange l c d) a b := by
  have hc1 : c < (exchange l a b).length := by rwa [exchange_length]
  have hd1 : d < (exchange l a b).length := by rwa [exchange_length]
  have ha1 : a < (exchange l c d).length := by rwa [exchange_length]
  have hb1 : b < (exchange l c d).length := by rwa [exchange_length]
  apply List.ext_getElem?
  intro j
  rw [exchange_getElem? hc1 hd1, exchange_getElem? ha1 hb1]
  simp only [exchange_getElem? ha hb, exchange_getElem? hc hd]
  split_ifs <;> simp_all

theorem exchangePair_comm {buf : List Nat} {a b c d : Nat} (ha : a + 1 < buf.length)
    (hb : b + 1 < buf.length) (hc : c + 1 < buf.length) (hd : d + 1 < buf.length)
    (hac : BlockDisj a c) (had : BlockDisj a d) (hbc : BlockDisj b c) (hbd : BlockDisj b d) :
    exchangePair (exchangePair buf a b) c d = exchangePair (exchangePair buf c d) a b := by
  unfold BlockDisj at hac had hbc hbd
  unfold exchangePair
  rw [exchange_comm (a := a + 1) (b := b + 1) (c := c) (d := d)
      (by rw [exchange_length]; omega) (by rw [exchange_length]; omega)
      (by rw [exchange_length]; omega) (by rw [exchange_length]; omega)
      (by omega) (by omega) (by omega) (by omega),
    exchange_comm (a := a) (b := b) (c := c) (d := d)
      (by omega) (by omega) (by omega) (by omega) (by omega) (by omega) (by omega) (by omega),
    exchange_comm (a := a + 1) (b := b + 1) (c := c + 1) (d := d + 1)
      (by simp only [exchange_length]; omega) (by simp only [exchange_length]; omega)
      (by simp only [exchange_length]; omega) (by simp only [exchange_length]; omega)
      (by omega) (by omega) (by omega) (by omega),
    exchange_comm (a := a) (b := b) (c := c + 1) (d := d + 1)
      (by simp only [exchange_length]; omega) (by simp only [exchange_length]; omega)
      (by simp only [exchange_length]; omega) (by simp only [exchange_length]; omega)
      (by omega) (by omega) (by omega) (by omega)]

theorem exchangePair_self_inv {buf : List Nat} {a b : Nat} (ha : a + 1 < buf.length)
    (hb : b + 1 < buf.length) (hab : BlockDisj a b) :
    exchangePair (exchangePair buf a b) a b = buf := by
  unfold BlockDisj at hab
  unfold exchangePair
  rw [exchange_comm (a := a + 1) (b := b + 1) (c := a) (d := b)
      (by rw [exchange_length]; omega) (by rw [exchange_length]; omega)
      (by rw [exchange_length]; omega) (by rw [exchange_length]; omega)
      (by omega) (by omega) (by omega) (by omega),
    exchange_self_inv (by simp only [exchange_length]; omega)
      (by simp only [exchange_length]; omega),
    exchange_self_inv (by omega) (by omega)]

theorem exchangePair_getElem?_of_ne (buf : List Nat) {a b j : Nat} (h1 : j ≠ a)
    (h2 : j ≠ a + 1) (h3 : j ≠ b) (h4 : j ≠ b + 1) :
    (exchangePair buf a b)[j]? = buf[j]? := by
  unfold exchangePair
  rw [exchange_getElem?_of_ne _ h2 h4, exchange_getElem?_of_ne _ h1 h3]

/-- Element-wise description of the processing of one pair with disjoint blocks. -/
theorem exchangePair_getElem? {buf : List Nat} {a b : Nat} (ha : a + 1 < buf.length)
    (hb : b + 1 < buf.length) (hab : BlockDisj a b) :
    (exchangePair buf a b)[a]? = buf[b]? ∧ (exchangePair buf a b)[b]? = buf[a]? ∧
    (exchangePair buf a b)[a + 1]? = buf[b + 1]? ∧
    (exchangePair buf a b)[b + 1]? = buf[a + 1]? := by
  unfold BlockDisj at hab
  unfold exchangePair
  have h1 : a < buf.length := by omega
  have h2 : b < buf.length := by omega
  have h3 : a + 1 < (exchange buf a b).length := by rwa [exchange_length]
  have h4 : b + 1 < (exchange buf a b).length := by rwa [exchange_length]
  have hne : a ≠ b := by omega
  have hne1 : a + 1 ≠ b + 1 := by omega
  refine ⟨?_, ?_, ?_, ?_⟩
  · rw [exchange_getElem?_of_ne _ (by omega) (by omega), exchange_getElem? h1 h2]
    simp [hne]
  · rw [exchange_getElem?_of_ne _ (by omega) (by omega), exchange_getElem? h1 h2]
    simp
  · rw [exchange_getElem? h3 h4]
    simp only [hne1, if_false, if_true]
    exact exchange_getElem?_of_ne _ (by omega) (by omega)
  · rw [exchange_getElem? h3 h4]
    simp only [if_true]
    exact exchange_getElem?_of_ne _ (by omega) (by omega)

/-! ## Facts on `exchangePairs` -/

theorem exchangePairs_append (idx : Nat → Nat) :
    ∀ (l₁ l₂ buf : List Nat), l₁.length % 2 = 0 →
      exchangePairs idx (l₁ ++ l₂) buf = exchangePairs idx l₂ (exchangePairs idx l₁ buf)
  | [], l₂, buf, _ => by simp [exchangePairs]
  | [_], _, _, h => by simp at h
  | rawA :: rawB :: rest, l₂, buf, h => by
    have h2 : rest.length % 2 = 0 := by
      simp only [List.length_cons] at h
      omega
    simp only [List.cons_append, exchangePairs]
    exact exchangePairs_append idx rest l₂ _ h2

/-- Frame of the pair-by-pair algorithm: a position outside every block keeps its
element. -/
theorem exchangePairs_getElem?_of_ne (idx : Nat → Nat) (j : Nat) :
    ∀ (t buf : List Nat), (∀ r ∈ t, j ≠ idx r ∧ j ≠ idx r + 1) →
      (exchangePairs idx t buf)[j]? = buf[j]?
  | [], _, _ => rfl
  | [_], _, _ => rfl
  | rawA :: rawB :: rest, buf, h => by
    have hA := h rawA (by simp)
    have hB := h rawB (by simp)
    rw [exchangePairs, exchangePairs_getElem?_of_ne idx j rest _
      (fun r hr => h r (by simp [hr])),
      exchangePair_getElem?_of_ne _ hA.1 hA.2 hB.1 hB.2]

theorem exchangePairs_comm (idx : Nat → Nat) (a b : Nat) :
    ∀ (t buf : List Nat), a + 1 < buf.length → b + 1 < buf.length →
      (∀ r ∈ t, idx r + 1 < buf.length ∧ BlockDisj a (idx r) ∧ BlockDisj b (idx r)) →
      exchangePair (exchangePairs idx t buf) a b = exchangePairs idx t (exchangePair buf a b)
  | [], _, _, _, _ => rfl
  | [_], _, _, _, _ => rfl
  | rawA :: rawB :: rest, buf, ha, hb, h => by
    have hA := h rawA (by simp)
    have hB := h rawB (by simp)
    rw [exchangePairs, exchangePairs,
      exchangePairs_comm idx a b rest _ (by rwa [exchangePair_length])
        (by rwa [exchangePair_length])
        (fun r hr => by rw [exchangePair_length]; exact h r (by simp [hr])),
      exchangePair_comm hA.1 hB.1 ha hb (by have := hA.2.1; unfold BlockDisj at *; omega)
        (by have := hA.2.2; unfold BlockDisj at *; omega)
        (by have := hB.2.1; unfold BlockDisj at *; omega)
        (by have := hB.2.2; unfold BlockDisj at *; omega)]

/-- The pair-by-pair algorithm on a table with pairwise disjoint blocks undoes itself. -/
theorem exchangePairs_involutive (idx : Nat → Nat) :
    ∀ (t buf : List Nat), (t.map idx).Pairwise BlockDisj →
      (∀ r ∈ t, idx r + 1 < buf.length) →
      exchangePairs idx t (exchangePairs idx t buf) = buf
  | [], _, _, _ => rfl
  | [_], _, _, _ => rfl
  | rawA :: rawB :: rest, buf, hd, hin => by
    simp only [List.map_cons, List.pairwise_cons, List.mem_cons, List.mem_map,
      forall_eq_or_imp, forall_exists_index, and_imp, forall_apply_eq_imp_iff₂] at hd
    obtain ⟨⟨hAB, hAr⟩, hBr, hrest⟩ := hd
    have hA := hin rawA (by simp)
    have hB := hin rawB (by simp)
    have hr : ∀ r ∈ rest, idx r + 1 < buf.length := fun r hr => hin r (by simp [hr])
    have c1 : exchangePairs idx rest (exchangePair buf (idx rawA) (idx rawB))
        = exchangePair (exchangePairs idx rest buf) (idx rawA) (idx rawB) :=
      (exchangePairs_comm idx (idx rawA) (idx rawB) rest buf hA hB
        (fun r hr1 => ⟨hr r hr1, hAr r hr1, hBr r hr1⟩)).symm
    rw [exchangePairs, exchangePairs, c1,
      exchangePair_self_inv (by rwa [exchangePairs_length]) (by rwa [exchangePairs_length]) hAB,
      exchangePairs_involutive idx rest buf hrest hr]

theorem exchange_perm (buf : List Nat) (a b : Nat) : (exchange buf a b).Perm buf := by
  by_cases ha : a < buf.length
  swap
  · simp [exchange, List.getElem?_eq_none (Nat.le_of_not_lt ha)]
  by_cases hb : b < buf.length
  swap
  · simp [exchange, List.getElem?_eq_none (Nat.le_of_not_lt hb)]
  rw [exchange_of_lt ha hb]
  by_cases hab : a = b
  · subst hab
    have h : (buf.set a buf[a]).set a buf[a] = buf := by
      apply List.ext_getElem?
      intro j
      rw [List.set_set, List.getElem?_set]
      split_ifs with h1
      · subst h1
        exact (List.getElem?_eq_getElem ha).symm
      · rfl
    rw [h]
  rw [List.perm_iff_count]
  intro x
  have hb1 : b < (buf.set a buf[b]).length := by simpa using hb
  rw [List.count_set _ _ _ _ hb1, List.count_set _ _ _ _ ha, List.getElem_set_ne hab]
  have h1 : buf[a] = x → 0 < buf.count x := fun h =>
    List.count_pos_iff.mpr (h ▸ List.getElem_mem ha)
  by_cases p : buf[a] = x <;> by_cases q : buf[b] = x <;> simp [p, q]
  · have := h1 p
    omega
  · have := h1 p
    omega

theorem exchangePairs_perm (idx : Nat → Nat) :
    ∀ (t buf : List Nat), (exchangePairs idx t buf).Perm buf
  | [], _ => List.Perm.refl _
  | [_], _ => List.Perm.refl _
  | rawA :: rawB :: rest, buf => by
    rw [exchangePairs]
    exact (exchangePairs_perm idx rest _).trans
      ((exchange_perm _ _ _).trans (exchange_perm _ _ _))

/-! ## Tables given by index -/

theorem getD_eq_getElem {t : List Nat} {i : Nat} (h : i < t.length) : t.getD i 0 = t[i] := by
  simp [List.getElem?_eq_getElem h]

theorem forall_mem_of_forall_index {t : List Nat} {P : Nat → Prop}
    (h : ∀ i < t.length, P (t.getD i 0)) : ∀ r ∈ t, P r := by
  intro r hr
  obtain ⟨i, hi, rfl⟩ := List.mem_iff_getElem.mp hr
  have := h i hi
  rwa [getD_eq_getElem hi] at this

theorem pairwise_of_forall_index {t : List Nat} {idx : Nat → Nat}
    (h : ∀ i j, i < t.length → j < t.length → i ≠ j →
      BlockDisj (idx (t.getD i 0)) (idx (t.getD j 0))) :
    (t.map idx).Pairwise BlockDisj := by
  rw [List.pairwise_iff_getElem]
  intro i j hi hj hij
  simp only [List.length_map] at hi hj
  have := h i j hi hj (by omega)
  rwa [getD_eq_getElem hi, getD_eq_getElem hj, ← List.getElem_map idx,
    ← List.getElem_map idx] at this

/-! ## The C loop computes the pair-by-pair algorithm -/

theorem arm_bitreversal_64_loop_eq {tab : List Nat} {len : Nat} (hlen : len ≤ tab.length)
    (heven : len % 2 = 0) :
    ∀ (fuel i : Nat) (buf : List Nat), i % 2 = 0 → len ≤ i + 2 * fuel →
      (∀ k < len, idx64 (tab.getD k 0) + 1 < buf.length) →
      arm_bitreversal_64_loop len tab fuel i buf
        = some (exchangePairs idx64 ((tab.take len).drop i) buf)
  | 0, i, buf, _, hf, _ => by
    have hi : ¬ i < len := by omega
    rw [arm_bitreversal_64_loop, if_neg hi, List.drop_eq_nil_of_le (by simp; omega)]
    rfl
  | fuel + 1, i, buf, hi2, hf, hin => by
    rw [arm_bitreversal_64_loop]
    by_cases hi : i < len
    · have hi1 : i + 1 < len := by omega
      have ht0 : i < (tab.take len).length := by simp; omega
      have ht1 : i + 1 < (tab.take len).length := by simp; omega
      rw [if_pos hi, arm_bitreversal_64_body_eq (by omega) (hin i hi) (hin (i + 1) hi1),
        Option.some_bind,
        arm_bitreversal_64_loop_eq hlen heven fuel (i + 2) _ (by omega) (by omega)
          (by simpa [exchangePair_length] using hin),
        List.drop_eq_getElem_cons ht0, List.drop_eq_getElem_cons ht1, exchangePairs,
        List.getElem_take, List.getElem_take, getD_eq_getElem (by omega),
        getD_eq_getElem (by omega)]
    · rw [if_neg hi, List.drop_eq_nil_of_le (by simp; omega)]
      rfl

/-! ## The 64-bit variant: claims -/

/-- C2: for an even `bitRevLen` not exceeding the table length, with every index
`table[i] >> 2` and `(table[i] >> 2) + 1` (`i < bitRevLen`) inside the buffer,
`arm_bitreversal_64` returns, and its final buffer is the result of processing the pairs
`(table[0], table[1]), ..., (table[bitRevLen-2], table[bitRevLen-1])` in that order, a
pair `(rawA, rawB)` exchanging `buffer[a]` with `buffer[b]` and then `buffer[a+1]` with
`buffer[b+1]` for `a = rawA >> 2`, `b = rawB >> 2`. -/
theorem arm_bitreversal_64_pair_by_pair (pSrc pBitRevTab : List Nat) (bitRevLen : Nat)
    (heven : bitRevLen % 2 = 0) (hlen : bitRevLen ≤ pBitRevTab.length)
    (hin : ∀ i < bitRevLen, idx64 (pBitRevTab.getD i 0) + 1 < pSrc.length) :
    arm_bitreversal_64 pSrc bitRevLen pBitRevTab
      = some (exchangePairs idx64 (pBitRevTab.take bitRevLen) pSrc) := by
  unfold arm_bitreversal_64
  rw [arm_bitreversal_64_loop_eq hlen heven bitRevLen 0 pSrc rfl (by omega) hin, List.drop_zero]

theorem arm_bitreversal_64_pair_by_pair_witness :
    arm_bitreversal_64 (List.range 16) 4 [8, 32, 24, 48, 0]
      = some (exchangePairs idx64 (List.take 4 [8, 32, 24, 48, 0]) (List.range 16)) :=
  arm_bitreversal_64_pair_by_pair (List.range 16) [8, 32, 24, 48, 0] 4 (by decide) (by decide)
    (by decide)

/-- C3: involution of the 64-bit variant.  For `bitRevLen` even and equal to the table
length, every index `a = T[i] >> 2` and `a + 1` inside the buffer and the blocks
`{a, a+1}` of the table entries pairwise disjoint, two calls of `arm_bitreversal_64`
with the same table return and leave the buffer as it was. -/
theorem arm_bitreversal_64_involution (pSrc pBitRevTab : List Nat) (bitRevLen : Nat)
    (heven : bitRevLen % 2 = 0) (hlen : bitRevLen = pBitRevTab.length)
    (hin : ∀ i < bitRevLen, idx64 (pBitRevTab.getD i 0) + 1 < pSrc.length)
    (hdis : ∀ i < bitRevLen, ∀ j < bitRevLen, i ≠ j →
      BlockDisj (idx64 (pBitRevTab.getD i 0)) (idx64 (pBitRevTab.getD j 0))) :
    (arm_bitreversal_64 pSrc bitRevLen pBitRevTab).bind
      (fun buf => arm_bitreversal_64 buf bitRevLen pBitRevTab) = some pSrc := by
  subst hlen
  have hle : pBitRevTab.length ≤ pBitRevTab.length := Nat.le_refl _
  unfold arm_bitreversal_64
  rw [arm_bitreversal_64_loop_eq hle heven _ 0 pSrc rfl (by omega) hin, Option.some_bind,
    arm_bitreversal_64_loop_eq hle heven _ 0 _ rfl (by omega)
      (by simpa [exchangePairs_length] using hin),
    List.drop_zero, List.take_length]
  exact congrArg some (exchangePairs_involutive idx64 pBitRevTab pSrc
    (pairwise_of_forall_index (fun i j hi hj hij => hdis i hi j hj hij))
    (forall_mem_of_forall_index (P := fun r => idx64 r + 1 < pSrc.length) hin))

theorem arm_bitreversal_64_involution_witness :
    (arm_bitreversal_64 (List.range 16) 4 [8, 32, 24, 48]).bind
      (fun buf => arm_bitreversal_64 buf 4 [8, 32, 24, 48]) = some (List.range 16) :=
  arm_bitreversal_64_involution (List.range 16) [8, 32, 24, 48] 4 (by decide) (by decide)
    (by decide) (by decide)

/-- C4: permutation, not loss, for the 64-bit variant.  For an even `bitRevLen` not
exceeding the table length with every index `table[i] >> 2` and `(table[i] >> 2) + 1`
inside the buffer (the pairs may overlap and repeat), `arm_bitreversal_64` returns a
buffer of the same length with the same multiset of element values. -/
theorem arm_bitreversal_64_multiset (pSrc pBitRevTab : List Nat) (bitRevLen : Nat)
    (heven : bitRevLen % 2 = 0) (hlen : bitRevLen ≤ pBitRevTab.length)
    (hin : ∀ i < bitRevLen, idx64 (pBitRevTab.getD i 0) + 1 < pSrc.length) :
    ∃ buf, arm_bitreversal_64 pSrc bitRevLen pBitRevTab = some buf ∧
      buf.length = pSrc.length ∧ Multiset.ofList buf = Multiset.ofList pSrc := by
  refine ⟨exchangePairs idx64 (pBitRevTab.take bitRevLen) pSrc, ?_, ?_, ?_⟩
  · unfold arm_bitreversal_64
    rw [arm_bitreversal_64_loop_eq hlen heven bitRevLen 0 pSrc rfl (by omega) hin,
      List.drop_zero]
  · exact exchangePairs_length _ _ _
  · exact Multiset.coe_eq_coe.mpr (exchangePairs_perm _ _ _)

theorem arm_bitreversal_64_multiset_witness :
    ∃ buf, arm_bitreversal_64 [10, 11, 12, 13] 4 [0, 4, 4, 8] = some buf ∧
      buf.length = [10, 11, 12, 13].length ∧
      Multiset.ofList buf = Multiset.ofList [10, 11, 12, 13] :=
  arm_bitreversal_64_multiset [10, 11, 12, 13] [0, 4, 4, 8] 4 (by decide) (by decide)
    (by decide)

/-- C5: no-op on an empty table.  With `bitRevLen = 0`, `arm_bitreversal_64` and the
default paths of `arm_bitreversal_32` and `arm_bitreversal_16` return the buffer
unchanged, whatever the buffer and the table are.  A read outside the table or the
buffer makes a run `none`, and the statement covers the empty table and the empty
buffer: the three calls read no table entry and no buffer element. -/
theorem bitRevLen_zero_no_op (pSrc pBitRevTab : List Nat) :
    arm_bitreversal_64 pSrc 0 pBitRevTab = some pSrc ∧
    arm_bitreversal_32 pSrc 0 pBitRevTab = some pSrc ∧
    arm_bitreversal_16 pSrc 0 pBitRevTab = some pSrc :=
  ⟨rfl, rfl, rfl⟩

/-! ## The bit-reversal permutation -/

theorem bitrev_lt : ∀ (n i : Nat), bitrev n i < 2 ^ n
  | 0, _ => by simp [bitrev]
  | n + 1, i => by
    have h := bitrev_lt n (i / 2)
    have h2 : i % 2 * 2 ^ n ≤ 1 * 2 ^ n := Nat.mul_le_mul_right _ (by omega)
    rw [bitrev, Nat.pow_succ]
    omega

/-- The reversal of `n + 1` bits, taken from the top bit instead of the bottom bit. -/
theorem bitrev_top : ∀ (n i : Nat), i < 2 ^ (n + 1) →
    bitrev (n + 1) i = 2 * bitrev n (i % 2 ^ n) + i / 2 ^ n
  | 0, i, h => by
    simp only [bitrev, Nat.pow_zero, Nat.mod_one, Nat.div_one]
    simp at h
    omega
  | n + 1, i, h => by
    have hi2 : i / 2 < 2 ^ (n + 1) := by
      rw [Nat.pow_succ] at h
      omega
    have e1 : i % 2 ^ (n + 1) % 2 = i % 2 :=
      Nat.mod_mod_of_dvd i (Dvd.intro_left (2 ^ n) rfl)
    have e2 : i % 2 ^ (n + 1) / 2 = i / 2 % 2 ^ n := by
      rw [Nat.pow_succ, Nat.mul_comm, Nat.mod_mul_right_div_self]
    have e3 : i / 2 / 2 ^ n = i / 2 ^ (n + 1) := by
      rw [Nat.div_div_eq_div_mul, Nat.pow_succ, Nat.mul_comm]
    rw [bitrev, bitrev_top n (i / 2) hi2, bitrev, e1, e2, e3, Nat.pow_succ]
    ring

theorem bitrev_involutive : ∀ (n i : Nat), i < 2 ^ n → bitrev n (bitrev n i) = i
  | 0, i, h => by
    simp at h
    simp [bitrev, h]
  | n + 1, i, h => by
    have hi2 : i / 2 < 2 ^ n := by
      rw [Nat.pow_succ] at h
      omega
    have hb := bitrev_lt n (i / 2)
    have hpos : 0 < 2 ^ n := Nat.two_pow_pos n
    rw [bitrev_top n _ (bitrev_lt (n + 1) i), bitrev, Nat.mul_comm (i % 2) (2 ^ n),
      Nat.mul_add_mod, Nat.mod_eq_of_lt hb, bitrev_involutive n (i / 2) hi2,
      Nat.mul_add_div hpos, Nat.div_eq_of_lt hb]
    omega

/-! ## The effect of a pair of a table with disjoint blocks -/

theorem exchangePairs_getElem?_pair (idx : Nat → Nat) :
    ∀ (t buf : List Nat) (p : Nat), (t.map idx).Pairwise BlockDisj →
      (∀ r ∈ t, idx r + 1 < buf.length) → 2 * p + 1 < t.length →
      (exchangePairs idx t buf)[idx (t.getD (2 * p) 0)]? = buf[idx (t.getD (2 * p + 1) 0)]? ∧
      (exchangePairs idx t buf)[idx (t.getD (2 * p + 1) 0)]? = buf[idx (t.getD (2 * p) 0)]? ∧
      (exchangePairs idx t buf)[idx (t.getD (2 * p) 0) + 1]?
        = buf[idx (t.getD (2 * p + 1) 0) + 1]? ∧
      (exchangePairs idx t buf)[idx (t.getD (2 * p + 1) 0) + 1]?
        = buf[idx (t.getD (2 * p) 0) + 1]?
  | [], _, _, _, _, h => by simp at h
  | [_], _, _, _, _, h => by simp at h
  | rawA :: rawB :: rest, buf, p, hd, hin, hp => by
    simp only [List.map_cons, List.pairwise_cons, List.mem_cons, List.mem_map,
      forall_eq_or_imp, forall_exists_index, and_imp, forall_apply_eq_imp_iff₂] at hd
    obtain ⟨⟨hAB, hAr⟩, hBr, hrest⟩ := hd
    have hA := hin rawA (by simp)
    have hB := hin rawB (by simp)
    have hr : ∀ r ∈ rest, idx r + 1 < buf.length := fun r hr => hin r (by simp [hr])
    cases p with
    | zero =>
      have hfr : ∀ j, (j = idx rawA ∨ j = idx rawA + 1 ∨ j = idx rawB ∨ j = idx rawB + 1) →
          (exchangePairs idx rest (exchangePair buf (idx rawA) (idx rawB)))[j]?
            = (exchangePair buf (idx rawA) (idx rawB))[j]? := by
        intro j hj
        apply exchangePairs_getElem?_of_ne
        intro r hr1
        have h1 := hAr r hr1
        have h2 := hBr r hr1
        unfold BlockDisj at h1 h2
        omega
      obtain ⟨e1, e2, e3, e4⟩ := exchangePair_getElem? hA hB hAB
      simp only [Nat.mul_zero, Nat.zero_add, List.getD_cons_zero, List.getD_cons_succ,
        exchangePairs]
      exact ⟨(hfr _ (by simp)).trans e1, (hfr _ (by simp)).trans e2,
        (hfr _ (by simp)).trans e3, (hfr _ (by simp)).trans e4⟩
    | succ q =>
      have hq : 2 * q + 1 < rest.length := by
        simp only [List.length_cons] at hp
        omega
      have e0 : (rawA :: rawB :: rest).getD (2 * (q + 1)) 0 = rest.getD (2 * q) 0 := by
        rw [show 2 * (q + 1) = 2 * q + 1 + 1 by ring, List.getD_cons_succ, List.getD_cons_succ]
      have e1 : (rawA :: rawB :: rest).getD (2 * (q + 1) + 1) 0 = rest.getD (2 * q + 1) 0 := by
        rw [show 2 * (q + 1) + 1 = 2 * q + 1 + 1 + 1 by ring, List.getD_cons_succ,
          List.getD_cons_succ]
      have m0 : rest.getD (2 * q) 0 ∈ rest := by
        rw [getD_eq_getElem (by omega)]
        exact List.getElem_mem _
      have m1 : rest.getD (2 * q + 1) 0 ∈ rest := by
        rw [getD_eq_getElem hq]
        exact List.getElem_mem _
      have hfr : ∀ r ∈ rest, ∀ j, (j = idx r ∨ j = idx r + 1) →
          (exchangePair buf (idx rawA) (idx rawB))[j]? = buf[j]? := by
        intro r hr1 j hj
        have h1 := hAr r hr1
        have h2 := hBr r hr1
        unfold BlockDisj at h1 h2
        apply exchangePair_getElem?_of_ne <;> omega
      obtain ⟨i1, i2, i3, i4⟩ := exchangePairs_getElem?_pair idx rest
        (exchangePair buf (idx rawA) (idx rawB)) q hrest
        (fun r hr1 => by rw [exchangePair_length]; exact hr r hr1) hq
      rw [e0, e1, exchangePairs]
      exact ⟨i1.trans (hfr _ m1 _ (Or.inl rfl)), i2.trans (hfr _ m0 _ (Or.inl rfl)),
        i3.trans (hfr _ m1 _ (Or.inr rfl)), i4.trans (hfr _ m0 _ (Or.inr rfl))⟩

/-! ## Tables of the bit-reversal permutation -/

theorem entry_of_pairs {n len : Nat} {tab : List Nat}
    (hpairs : ∀ p, 2 * p < len → ∃ i, i < 2 ^ n ∧ i ≠ bitrev n i ∧
      pair64 tab p = (2 * i, 2 * bitrev n i)) (m : Nat) (hm : m < len) :
    ∃ i, i < 2 ^ n ∧ i ≠ bitrev n i ∧ pair64 tab (m / 2) = (2 * i, 2 * bitrev n i) ∧
      ((m % 2 = 0 ∧ idx64 (tab.getD m 0) = 2 * i) ∨
        (m % 2 = 1 ∧ idx64 (tab.getD m 0) = 2 * bitrev n i)) := by
  obtain ⟨i, hi, hne, hp⟩ := hpairs (m / 2) (by omega)
  refine ⟨i, hi, hne, hp, ?_⟩
  unfold pair64 at hp
  have h1 := congrArg Prod.fst hp
  have h2 := congrArg Prod.snd hp
  simp only at h1 h2
  rcases Nat.mod_two_eq_zero_or_one m with h | h
  · left
    refine ⟨h, ?_⟩
    rwa [show 2 * (m / 2) = m by omega] at h1
  · right
    refine ⟨h, ?_⟩
    rwa [show 2 * (m / 2) + 1 = m by omega] at h2

theorem blockDisj_of_pairs {n len : Nat} {tab : List Nat}
    (hpairs : ∀ p, 2 * p < len → ∃ i, i < 2 ^ n ∧ i ≠ bitrev n i ∧
      pair64 tab p = (2 * i, 2 * bitrev n i))
    (honce : ∀ i, i < 2 ^ n → i ≠ bitrev n i → ∃! p, 2 * p < len ∧ ListsPair n tab p i) :
    ∀ m < len, ∀ m' < len, m ≠ m' →
      BlockDisj (idx64 (tab.getD m 0)) (idx64 (tab.getD m' 0)) := by
  intro m hm m' hm' hne
  obtain ⟨i, hi, hir, hp, hx⟩ := entry_of_pairs hpairs m hm
  obtain ⟨j, hj, hjr, hp', hy⟩ := entry_of_pairs hpairs m' hm'
  by_cases hsame : m / 2 = m' / 2
  · rw [hsame, hp'] at hp
    have hij : j = i := by
      have := congrArg Prod.fst hp
      simp only at this
      omega
    subst hij
    unfold BlockDisj
    rcases hx with ⟨hx0, hx⟩ | ⟨hx0, hx⟩ <;> rcases hy with ⟨hy0, hy⟩ | ⟨hy0, hy⟩ <;>
      rw [hx, hy] <;> omega
  · by_contra hnd
    unfold BlockDisj at hnd
    have hl : ListsPair n tab (m' / 2) i := by
      unfold ListsPair
      rw [hp']
      rcases hx with ⟨_, hx⟩ | ⟨_, hx⟩ <;> rcases hy with ⟨_, hy⟩ | ⟨_, hy⟩ <;>
        rw [hx, hy] at hnd
      · have e : i = j := by omega
        subst e
        exact Or.inl rfl
      · have e : i = bitrev n j := by omega
        have e2 : bitrev n i = j := by rw [e, bitrev_involutive n j hj]
        right
        rw [e2, ← e]
      · have e : j = bitrev n i := by omega
        have e2 : bitrev n j = i := by rw [e, bitrev_involutive n i hi]
        right
        rw [e2, ← e]
      · have e : bitrev n i = bitrev n j := by omega
        have e2 : i = j := by
          rw [← bitrev_involutive n i hi, e, bitrev_involutive n j hj]
        subst e2
        exact Or.inl rfl
    obtain ⟨p0, _, huniq⟩ := honce i hi hir
    have u1 := huniq (m / 2) ⟨by omega, Or.inl hp⟩
    have u2 := huniq (m' / 2) ⟨by omega, hl⟩
    exact hsame (u1.trans u2.symm)

/-- C1: `arm_bitreversal_64` realises the bit-reversal permutation on complex samples.
For every `n` (in particular `0 ≤ n ≤ 13`), every buffer of `2 * 2 ^ n` elements and
every table of even length `bitRevLen` whose pairs `(rawA, rawB)` satisfy
`rawA >> 2 = 2 * i` and `rawB >> 2 = 2 * bitrev n i` with `i ≠ bitrev n i`, and in which
every unordered pair `{i, bitrev n i}` with `i ≠ bitrev n i` is listed exactly once:
`arm_bitreversal_64` returns a buffer of the same length, and for every `k < 2 ^ n` its
elements `2 * k` and `2 * k + 1` are the elements `2 * bitrev n k` and
`2 * bitrev n k + 1` of the buffer before the call. -/
theorem arm_bitreversal_64_bit_reversal (n : Nat) (pSrc pBitRevTab : List Nat)
    (bitRevLen : Nat) (hbuf : pSrc.length = 2 * 2 ^ n) (heven : bitRevLen % 2 = 0)
    (hlen : bitRevLen = pBitRevTab.length)
    (hpairs : ∀ p, 2 * p < bitRevLen → ∃ i, i < 2 ^ n ∧ i ≠ bitrev n i ∧
      pair64 pBitRevTab p = (2 * i, 2 * bitrev n i))
    (honce : ∀ i, i < 2 ^ n → i ≠ bitrev n i →
      ∃! p, 2 * p < bitRevLen ∧ ListsPair n pBitRevTab p i) :
    ∃ buf, arm_bitreversal_64 pSrc bitRevLen pBitRevTab = some buf ∧
      buf.length = pSrc.length ∧
      ∀ k < 2 ^ n, buf[2 * k]? = pSrc[2 * bitrev n k]? ∧
        buf[2 * k + 1]? = pSrc[2 * bitrev n k + 1]? := by
  have hin : ∀ m < bitRevLen, idx64 (pBitRevTab.getD m 0) + 1 < pSrc.length := by
    intro m hm
    obtain ⟨i, hi, _, _, hx⟩ := entry_of_pairs hpairs m hm
    have hb := bitrev_lt n i
    rcases hx with ⟨_, hx⟩ | ⟨_, hx⟩ <;> rw [hx, hbuf] <;> omega
  have hdis := blockDisj_of_pairs hpairs honce
  subst hlen
  have hpw : (pBitRevTab.map idx64).Pairwise BlockDisj :=
    pairwise_of_forall_index (fun i j hi hj hij => hdis i hi j hj hij)
  have hmem : ∀ r ∈ pBitRevTab, idx64 r + 1 < pSrc.length :=
    forall_mem_of_forall_index (P := fun r => idx64 r + 1 < pSrc.length) hin
  refine ⟨exchangePairs idx64 pBitRevTab pSrc, ?_, exchangePairs_length _ _ _, ?_⟩
  · unfold arm_bitreversal_64
    rw [arm_bitreversal_64_loop_eq (Nat.le_refl _) heven _ 0 pSrc rfl (by omega) hin,
      List.drop_zero, List.take_length]
  intro k hk
  by_cases hfix : k = bitrev n k
  · rw [← hfix]
    have hout : ∀ r ∈ pBitRevTab, idx64 r ≠ 2 * k ∧ idx64 r ≠ 2 * k + 1 ∧
        idx64 r + 1 ≠ 2 * k ∧ idx64 r + 1 ≠ 2 * k + 1 := by
      intro r hr
      obtain ⟨m, hm, rfl⟩ := List.mem_iff_getElem.mp hr
      obtain ⟨i, hi, hir, _, hx⟩ := entry_of_pairs hpairs m hm
      rw [getD_eq_getElem hm] at hx
      have hki : k ≠ i := fun h => hir (h ▸ hfix)
      have hkr : k ≠ bitrev n i := by
        intro h
        have h2 : bitrev n k = i := by rw [h, bitrev_involutive n i hi]
        exact hki (hfix.trans h2)
      rcases hx with ⟨_, hx⟩ | ⟨_, hx⟩ <;> rw [hx] <;> omega
    constructor
    · apply exchangePairs_getElem?_of_ne
      intro r hr
      have := hout r hr
      omega
    · apply exchangePairs_getElem?_of_ne
      intro r hr
      have := hout r hr
      omega
  · obtain ⟨p, ⟨hp, hl⟩, _⟩ := honce k hk hfix
    obtain ⟨e1, e2, e3, e4⟩ := exchangePairs_getElem?_pair idx64 pBitRevTab pSrc p hpw hmem
      (by omega)
    unfold ListsPair pair64 at hl
    rcases hl with hl | hl
    · have h1 := congrArg Prod.fst hl
      have h2 := congrArg Prod.snd hl
      simp only at h1 h2
      rw [h1, h2] at e1 e3
      exact ⟨e1, e3⟩
    · have h1 := congrArg Prod.fst hl
      have h2 := congrArg Prod.snd hl
      simp only at h1 h2
      rw [h1, h2] at e2 e4
      exact ⟨e2, e4⟩

/-- The table `[8, 32, 24, 48]` of `N = 8` samples, pairs `(1, 4)` and `(3, 6)`: the
samples end in the order `0, 4, 2, 6, 1, 5, 3, 7`. -/
theorem arm_bitreversal_64_bit_reversal_witness :
    (∃ buf, arm_bitreversal_64 (List.range 16) 4 [8, 32, 24, 48] = some buf ∧
      buf.length = (List.range 16).length ∧
      ∀ k < 2 ^ 3, buf[2 * k]? = (List.range 16)[2 * bitrev 3 k]? ∧
        buf[2 * k + 1]? = (List.range 16)[2 * bitrev 3 k + 1]?) ∧
    arm_bitreversal_64 (List.range 16) 4 [8, 32, 24, 48]
      = some [0, 1, 8, 9, 4, 5, 12, 13, 2, 3, 10, 11, 6, 7, 14, 15] :=
  ⟨arm_bitreversal_64_bit_reversal 3 (List.range 16) [8, 32, 24, 48] 4 (by decide)
    (by decide) (by decide)
    (by
      intro p hp
      have h : p = 0 ∨ p = 1 := by omega
      rcases h with rfl | rfl
      · exact ⟨1, by decide, by decide, by decide⟩
      · exact ⟨3, by decide, by decide, by decide⟩)
    (by
      intro i hi hne
      have hi8 : i < 8 := hi
      have hq : ∀ q, 2 * q < 4 → q = 0 ∨ q = 1 := fun q hq => by omega
      interval_cases i
      · exact absurd (by decide) hne
      · refine ⟨0, ⟨by decide, by decide⟩, ?_⟩
        rintro q ⟨h1, h2⟩
        rcases hq q h1 with rfl | rfl
        · rfl
        · exact absurd h2 (by decide)
      · exact absurd (by decide) hne
      · refine ⟨1, ⟨by decide, by decide⟩, ?_⟩
        rintro q ⟨h1, h2⟩
        rcases hq q h1 with rfl | rfl
        · exact absurd h2 (by decide)
        · rfl
      · refine ⟨0, ⟨by decide, by decide⟩, ?_⟩
        rintro q ⟨h1, h2⟩
        rcases hq q h1 with rfl | rfl
        · rfl
        · exact absurd h2 (by decide)
      · exact absurd (by decide) hne
      · refine ⟨1, ⟨by decide, by decide⟩, ?_⟩
        rintro q ⟨h1, h2⟩
        rcases hq q h1 with rfl | rfl
        · exact absurd h2 (by decide)
        · rfl
      · exact absurd (by decide) hne),
   by decide⟩

/-! ## The assembly loops -/

theorem ldrh_eq {tab : List Nat} {j : Nat} (h : j < tab.length) {off : Nat}
    (hoff : off = 2 * j) : ldrh tab off = some tab[j] := by
  subst hoff
  simp [ldrh, List.getElem?_eq_getElem h]

theorem ldr32_eq {mem : List Nat} {off i : Nat} (hal : off % 4 = 0) (hi : off / 4 = i)
    (h : i < mem.length) : ldr32 mem off = some mem[i] := by
  subst hi
  simp [ldr32, hal, List.getElem?_eq_getElem h]

theorem str32_eq {mem : List Nat} {off i : Nat} (v : Nat) (hal : off % 4 = 0)
    (hi : off / 4 = i) (h : i < mem.length) : str32 mem off v = some (mem.set i v) := by
  subst hi
  simp [str32, wr, hal, h]

/-- The loop counter after `SUBS r3,r3,#1`. -/
theorem asmLoop_succ (body : List Nat → Nat → Option (List Nat)) (stride fuel r1 r3 : Nat)
    {mem mem' : List Nat} (hb : body mem r1 = some mem') (h0 : 0 < r3) (h32 : r3 < 2 ^ 32) :
    asmLoop body stride (fuel + 1) r1 r3 mem
      = if r3 - 1 ≠ 0 then asmLoop body stride fuel (r1 + stride) (r3 - 1) mem'
        else some mem' := by
  have e : (r3 + 2 ^ 32 - 1) % 2 ^ 32 = r3 - 1 := by
    rw [show r3 + 2 ^ 32 - 1 = (r3 - 1) + 2 ^ 32 by omega, Nat.add_mod_right,
      Nat.mod_eq_of_lt (by omega)]
  rw [asmLoop, hb, Option.some_bind]
  simp only [e]

/-- A loop entered with the counter 0 runs its body and goes on with the counter
`2 ^ 32 - 1`. -/
theorem asmLoop_counter_zero (body : List Nat → Nat → Option (List Nat))
    (stride fuel r1 : Nat) (mem : List Nat) :
    asmLoop body stride (fuel + 1) r1 0 mem
      = (body mem r1).bind (asmLoop body stride fuel (r1 + stride) (2 ^ 32 - 1)) := by
  rw [asmLoop]
  have e : (0 + 2 ^ 32 - 1) % 2 ^ 32 = 2 ^ 32 - 1 := by norm_num
  have e0 : (2 : Nat) ^ 32 - 1 ≠ 0 := by norm_num
  simp only [e, e0, ne_eq, not_false_eq_true, if_true]

/-- A loop whose body processes the `w` table entries at the table pointer runs `c`
times for a counter `0 < c < 2 ^ 32` and processes `w * c` entries. -/
theorem asmLoop_eq (body : List Nat → Nat → Option (List Nat)) (w base : Nat)
    (tab : List Nat) (idx : Nat → Nat) (P : List Nat → Prop) (hw : w % 2 = 0)
    (hbody : ∀ j mem, j + w ≤ tab.length → P mem →
      body mem (base + 2 * j) = some (exchangePairs idx ((tab.drop j).take w) mem))
    (hP : ∀ t mem, P mem → P (exchangePairs idx t mem)) :
    ∀ (c fuel j : Nat) (mem : List Nat), 0 < c → c ≤ fuel → c < 2 ^ 32 →
      j + w * c ≤ tab.length → P mem →
      asmLoop body (2 * w) fuel (base + 2 * j) c mem
        = some (exchangePairs idx ((tab.drop j).take (w * c)) mem)
  | 0, _, _, _, h, _, _, _, _ => absurd h (Nat.lt_irrefl 0)
  | _ + 1, 0, _, _, _, h, _, _, _ => absurd h (by omega)
  | c + 1, fuel + 1, j, mem, _, hf, h32, hj, hmem => by
    have hj1 : j + w ≤ tab.length := by
      rw [Nat.mul_succ] at hj
      omega
    rw [asmLoop_succ body (2 * w) fuel _ _ (hbody j mem hj1 hmem) (by omega) h32]
    have hsplit : (tab.drop j).take (w * (c + 1))
        = (tab.drop j).take w ++ (tab.drop (j + w)).take (w * c) := by
      rw [Nat.mul_succ, Nat.add_comm (w * c) w, List.take_add, List.drop_drop]
    have hlen1 : ((tab.drop j).take w).length % 2 = 0 := by
      rw [List.length_take, List.length_drop, Nat.min_eq_left (by omega)]
      exact hw
    rw [hsplit, exchangePairs_append idx _ _ _ hlen1]
    by_cases hc : c = 0
    · subst hc
      simp [exchangePairs]
    · rw [if_pos (by omega), Nat.add_sub_cancel,
        show base + 2 * j + 2 * w = base + 2 * (j + w) by ring]
      exact asmLoop_eq body w base tab idx P hw hbody hP c fuel (j + w) _ (by omega) (by omega) (by omega)
        (by rw [Nat.mul_succ] at hj; omega) (hP _ _ hmem)

theorem take_drop_two {t : List Nat} {j : Nat} (h : j + 2 ≤ t.length) :
    (t.drop j).take 2 = [t[j], t[j + 1]] := by
  rw [List.drop_eq_getElem_cons (by omega), List.drop_eq_getElem_cons (by omega)]
  rfl

theorem take_drop_four {t : List Nat} {j : Nat} (h : j + 4 ≤ t.length) :
    (t.drop j).take 4 = [t[j], t[j + 1], t[j + 2], t[j + 3]] := by
  rw [List.drop_eq_getElem_cons (by omega), List.drop_eq_getElem_cons (by omega),
    List.drop_eq_getElem_cons (by omega), List.drop_eq_getElem_cons (by omega)]
  rfl

/-! ## `arm_bitreversal_32`: the loop bodies -/

theorem arm_bitreversal_32_words_eq {mem : List Nat} {r9 r8 r2 r12 k : Nat}
    (i9 i8 i2 i12 : Nat)
    (a9 : (r9 + k) % 4 = 0) (a8 : (r8 + k) % 4 = 0) (a2 : (r2 + k) % 4 = 0)
    (a12 : (r12 + k) % 4 = 0) (e9 : (r9 + k) / 4 = i9) (e8 : (r8 + k) / 4 = i8)
    (e2 : (r2 + k) / 4 = i2) (e12 : (r12 + k) / 4 = i12) (h9 : i9 < mem.length)
    (h8 : i8 < mem.length) (h2 : i2 < mem.length) (h12 : i12 < mem.length)
    (d1 : i9 ≠ i12) (d2 : i9 ≠ i2) (d3 : i8 ≠ i12) (d4 : i8 ≠ i2) :
    arm_bitreversal_32_words mem r9 r8 r2 r12 k
      = some (exchange (exchange mem i9 i8) i12 i2) := by
  have h12x : i12 < (exchange mem i9 i8).length := by rwa [exchange_length]
  have h2x : i2 < (exchange mem i9 i8).length := by rwa [exchange_length]
  have g2 : (exchange mem i9 i8)[i2] = mem[i2] := by
    have := exchange_getElem?_of_ne mem (a := i9) (b := i8) (j := i2) (Ne.symm d2) (Ne.symm d4)
    rw [List.getElem?_eq_getElem h2x, List.getElem?_eq_getElem h2] at this
    exact Option.some.inj this
  have g12 : (exchange mem i9 i8)[i12] = mem[i12] := by
    have := exchange_getElem?_of_ne mem (a := i9) (b := i8) (j := i12) (Ne.symm d1)
      (Ne.symm d3)
    rw [List.getElem?_eq_getElem h12x, List.getElem?_eq_getElem h12] at this
    exact Option.some.inj this
  rw [exchange_of_lt h12x h2x, g2, g12, exchange_of_lt h9 h8]
  unfold arm_bitreversal_32_words
  rw [ldr32_eq a9 e9 h9, ldr32_eq a8 e8 h8, ldr32_eq a2 e2 h2, ldr32_eq a12 e12 h12]
  simp only [Option.bind_eq_bind, Option.some_bind]
  rw [str32_eq _ a9 e9 h9, Option.some_bind, str32_eq _ a8 e8 (by simpa using h8),
    Option.some_bind, str32_eq _ a12 e12 (by simpa using h12), Option.some_bind,
    str32_eq _ a2 e2 (by simpa using h2)]

/-- Two pairs with disjoint blocks, exchanged the way the unrolled loop does it: the
first words of both pairs, then the second words of both pairs. -/
theorem exchange_unrolled {mem : List Nat} {a0 a1 a2 a3 : Nat} (h0 : a0 + 1 < mem.length)
    (h1 : a1 + 1 < mem.length) (h2 : a2 + 1 < mem.length) (h3 : a3 + 1 < mem.length)
    (d02 : BlockDisj a0 a2) (d03 : BlockDisj a0 a3) (d12 : BlockDisj a1 a2)
    (d13 : BlockDisj a1 a3) :
    exchange (exchange (exchange (exchange mem a2 a3) a0 a1) (a2 + 1) (a3 + 1)) (a0 + 1)
      (a1 + 1) = exchangePair (exchangePair mem a0 a1) a2 a3 := by
  unfold BlockDisj at d02 d03 d12 d13
  unfold exchangePair
  rw [exchange_comm (l := mem) (a := a2) (b := a3) (c := a0) (d := a1) (by omega) (by omega)
      (by omega) (by omega) (by omega) (by omega) (by omega) (by omega),
    exchange_comm (a := a2 + 1) (b := a3 + 1) (c := a0 + 1) (d := a1 + 1)
      (by simp only [exchange_length]; omega) (by simp only [exchange_length]; omega)
      (by simp only [exchange_length]; omega) (by simp only [exchange_length]; omega)
      (by omega) (by omega) (by omega) (by omega),
    exchange_comm (l := exchange mem a0 a1) (a := a2) (b := a3) (c := a0 + 1) (d := a1 + 1)
      (by simp only [exchange_length]; omega) (by simp only [exchange_length]; omega)
      (by simp only [exchange_length]; omega) (by simp only [exchange_length]; omega)
      (by omega) (by omega) (by omega) (by omega)]

theorem arm_bitreversal_32_body_eq {tab mem : List Nat} {j : Nat} (hj : j + 4 ≤ tab.length)
    (hal : ∀ i < tab.length, tab.getD i 0 % 4 = 0)
    (hin : ∀ i < tab.length, idx32 (tab.getD i 0) + 1 < mem.length)
    (hdis : ∀ i < tab.length, ∀ k < tab.length, i ≠ k →
      BlockDisj (idx32 (tab.getD i 0)) (idx32 (tab.getD k 0))) :
    arm_bitreversal_32_body tab mem (2 + 2 * j)
      = some (exchangePairs idx32 ((tab.drop j).take 4) mem) := by
  have l0 : j < tab.length := by omega
  have l1 : j + 1 < tab.length := by omega
  have l2 : j + 2 < tab.length := by omega
  have l3 : j + 3 < tab.length := by omega
  have A0 := hal j l0
  have A1 := hal (j + 1) l1
  have A2 := hal (j + 2) l2
  have A3 := hal (j + 3) l3
  have R0 := hin j l0
  have R1 := hin (j + 1) l1
  have R2 := hin (j + 2) l2
  have R3 := hin (j + 3) l3
  have D02 := hdis j l0 (j + 2) l2 (by omega)
  have D03 := hdis j l0 (j + 3) l3 (by omega)
  have D12 := hdis (j + 1) l1 (j + 2) l2 (by omega)
  have D13 := hdis (j + 1) l1 (j + 3) l3 (by omega)
  rw [getD_eq_getElem l0] at A0 R0 D02 D03
  rw [getD_eq_getElem l1] at A1 R1 D12 D13
  rw [getD_eq_getElem l2] at A2 R2 D02 D12
  rw [getD_eq_getElem l3] at A3 R3 D03 D13
  rw [take_drop_four hj, exchangePairs_cons_cons, exchangePairs_cons_cons, exchangePairs_nil,
    ← exchange_unrolled R0 R1 R2 R3 D02 D03 D12 D13]
  unfold idx32 BlockDisj at *
  unfold arm_bitreversal_32_body
  rw [ldrh_eq l3 (by omega), ldrh_eq l2 (by omega), ldrh_eq l1 (by omega),
    ldrh_eq l0 (by omega)]
  simp only [Option.bind_eq_bind, Option.some_bind]
  rw [arm_bitreversal_32_words_eq (tab[j + 2] / 4) (tab[j + 3] / 4)
      (tab[j + 1] / 4) (tab[j] / 4) (by omega) (by omega) (by omega) (by omega)
      (by omega) (by omega) (by omega) (by omega) (by omega) (by omega) (by omega) (by omega)
      (by omega) (by omega) (by omega) (by omega),
    Option.some_bind,
    arm_bitreversal_32_words_eq (tab[j + 2] / 4 + 1) (tab[j + 3] / 4 + 1)
      (tab[j + 1] / 4 + 1) (tab[j] / 4 + 1) (by omega) (by omega) (by omega)
      (by omega) (by omega) (by omega) (by omega) (by omega)
      (by simp only [exchange_length]; omega) (by simp only [exchange_length]; omega)
      (by simp only [exchange_length]; omega) (by simp only [exchange_length]; omega)
      (by omega) (by omega) (by omega) (by omega)]

theorem arm_bitreversal_32_baseline_words_eq {mem : List Nat} {r2 r6 k : Nat} (i2 i6 : Nat)
    (a2 : (r2 + k) % 4 = 0) (a6 : (r6 + k) % 4 = 0) (e2 : (r2 + k) / 4 = i2)
    (e6 : (r6 + k) / 4 = i6) (h2 : i2 < mem.length) (h6 : i6 < mem.length) :
    arm_bitreversal_32_baseline_words mem r2 r6 k = some (exchange mem i6 i2) := by
  rw [exchange_of_lt h6 h2]
  unfold arm_bitreversal_32_baseline_words
  rw [ldr32_eq a2 e2 h2, ldr32_eq a6 e6 h6]
  simp only [Option.bind_eq_bind, Option.some_bind]
  rw [str32_eq _ a6 e6 h6, Option.some_bind, str32_eq _ a2 e2 (by simpa using h2)]

theorem arm_bitreversal_32_baseline_body_eq {tab mem : List Nat} {j : Nat}
    (hj : j + 2 ≤ tab.length) (hal : ∀ i < tab.length, tab.getD i 0 % 4 = 0)
    (hin : ∀ i < tab.length, idx32 (tab.getD i 0) + 1 < mem.length) :
    arm_bitreversal_32_baseline_body tab mem (0 + 2 * j)
      = some (exchangePairs idx32 ((tab.drop j).take 2) mem) := by
  have l0 : j < tab.length := by omega
  have l1 : j + 1 < tab.length := by omega
  have A0 := hal j l0
  have A1 := hal (j + 1) l1
  have R0 := hin j l0
  have R1 := hin (j + 1) l1
  rw [getD_eq_getElem l0] at A0 R0
  rw [getD_eq_getElem l1] at A1 R1
  rw [take_drop_two hj, exchangePairs_cons_cons, exchangePairs_nil]
  unfold idx32 at *
  unfold arm_bitreversal_32_baseline_body exchangePair
  rw [ldrh_eq l1 (by omega), ldrh_eq l0 (by omega)]
  simp only [Option.bind_eq_bind, Option.some_bind]
  rw [arm_bitreversal_32_baseline_words_eq (tab[j + 1] / 4) (tab[j] / 4)
      (by omega) (by omega) (by omega) (by omega) (by omega) (by omega),
    Option.some_bind,
    arm_bitreversal_32_baseline_words_eq (tab[j + 1] / 4 + 1) (tab[j] / 4 + 1)
      (by omega) (by omega) (by omega) (by omega) (by simp only [exchange_length]; omega)
      (by simp only [exchange_length]; omega)]

/-- The default path of `arm_bitreversal_32` on a table whose length is a multiple
of 4. -/
theorem arm_bitreversal_32_eq {pSrc tab : List Nat} {len : Nat} (hlen : len = tab.length)
    (h16 : len < 65536) (h4 : len % 4 = 0) (hal : ∀ i < len, tab.getD i 0 % 4 = 0)
    (hin : ∀ i < len, idx32 (tab.getD i 0) + 1 < pSrc.length)
    (hdis : ∀ i < len, ∀ k < len, i ≠ k →
      BlockDisj (idx32 (tab.getD i 0)) (idx32 (tab.getD k 0))) :
    arm_bitreversal_32 pSrc len tab = some (exchangePairs idx32 tab pSrc) := by
  subst hlen
  unfold arm_bitreversal_32
  by_cases h0 : 0 = tab.length
  · rw [if_pos h0, List.length_eq_zero.mp h0.symm, exchangePairs_nil]
  · rw [if_neg h0]
    have hc : ((tab.length + 1) % 2 ^ 32) >>> 2 = tab.length / 4 := by
      rw [Nat.mod_eq_of_lt (by omega), Nat.shiftRight_eq_div_pow]
      omega
    have key := asmLoop_eq (arm_bitreversal_32_body tab) 4 2 tab idx32
      (fun m => m.length = pSrc.length) (by decide)
      (fun j mem hj hm => arm_bitreversal_32_body_eq hj hal (by rw [show mem.length = pSrc.length from hm]; exact hin) hdis)
      (fun t mem hm => (exchangePairs_length idx32 t mem).trans hm)
      (tab.length / 4) (2 ^ 32) 0 pSrc (by omega) (by omega) (by omega) (by omega) rfl
    simp only [hc]
    rw [show (8 : Nat) = 2 * 4 from rfl, show (2 : Nat) = 2 + 2 * 0 from rfl, key,
      List.drop_zero, List.take_of_length_le (by omega)]

/-- The ARMv6-M / ARMv8-M Baseline path of `arm_bitreversal_32` on a table of even,
positive length. -/
theorem arm_bitreversal_32_baseline_eq {pSrc tab : List Nat} {len : Nat}
    (hlen : len = tab.length) (h16 : len < 65536) (h2 : len % 2 = 0) (hpos : 0 < len)
    (hal : ∀ i < len, tab.getD i 0 % 4 = 0)
    (hin : ∀ i < len, idx32 (tab.getD i 0) + 1 < pSrc.length) :
    arm_bitreversal_32_baseline pSrc len tab = some (exchangePairs idx32 tab pSrc) := by
  subst hlen
  unfold arm_bitreversal_32_baseline
  have hc : ((tab.length + 1) % 2 ^ 32) >>> 1 = tab.length / 2 := by
    rw [Nat.mod_eq_of_lt (by omega), Nat.shiftRight_eq_div_pow]
    omega
  have key := asmLoop_eq (arm_bitreversal_32_baseline_body tab) 2 0 tab idx32
      (fun m => m.length = pSrc.length) (by decide)
    (fun j mem hj hm => arm_bitreversal_32_baseline_body_eq hj hal (by rw [show mem.length = pSrc.length from hm]; exact hin))
    (fun t mem hm => (exchangePairs_length idx32 t mem).trans hm)
    (tab.length / 2) (2 ^ 32) 0 pSrc (by omega) (by omega) (by omega) (by omega) rfl
  simp only [hc]
  rw [show (4 : Nat) = 2 * 2 from rfl, show (0 : Nat) = 0 + 2 * 0 from rfl, key,
    List.drop_zero, List.take_of_length_le (by omega)]

/-! ## `arm_bitreversal_16`: the loop bodies -/

theorem ldr16_eq {mem : List Nat} {o h : Nat} (hal : o % 4 = 0) (hh : o / 2 = h)
    (hr : h + 1 < mem.length) : ldr16 mem o = some (mem[h] + 65536 * mem[h + 1]) := by
  subst hh
  have h0 : o / 2 < mem.length := by omega
  simp [ldr16, hal, List.getElem?_eq_getElem hr, List.getElem?_eq_getElem h0]

theorem str16_eq {mem : List Nat} {o h : Nat} {x y : Nat} (hal : o % 4 = 0)
    (hh : o / 2 = h) (hr : h + 1 < mem.length) (hx : x < 65536) (hy : y < 65536) :
    str16 mem o (x + 65536 * y) = some ((mem.set h x).set (h + 1) y) := by
  subst hh
  have h0 : o / 2 < mem.length := by omega
  have e1 : (x + 65536 * y) % 65536 = x := by omega
  have e2 : (x + 65536 * y) / 65536 % 65536 = y := by omega
  simp [str16, wr, hal, h0, hr, e1, e2]

/-- Two copies of a word, each to the place of the other, exchange the two blocks. -/
theorem set_word_eq_exchangePair {mem : List Nat} {a b x0 x1 y0 y1 : Nat}
    (ha : a + 1 < mem.length) (hb : b + 1 < mem.length) (hab : BlockDisj a b)
    (hx0 : mem[b]? = some x0) (hx1 : mem[b + 1]? = some x1) (hy0 : mem[a]? = some y0)
    (hy1 : mem[a + 1]? = some y1) :
    (((mem.set a x0).set (a + 1) x1).set b y0).set (b + 1) y1 = exchangePair mem a b := by
  unfold BlockDisj at hab
  obtain ⟨e1, e2, e3, e4⟩ := exchangePair_getElem? ha hb hab
  apply List.ext_getElem?
  intro j
  by_cases j1 : j = b + 1
  · subst j1
    rw [e4, List.getElem?_set_self (by simpa using hb), hy1]
  rw [List.getElem?_set_ne (Ne.symm j1)]
  by_cases j2 : j = b
  · subst j2
    rw [e2, List.getElem?_set_self (by simp; omega), hy0]
  rw [List.getElem?_set_ne (Ne.symm j2)]
  by_cases j3 : j = a + 1
  · subst j3
    rw [e3, List.getElem?_set_self (by simpa using ha), hx1]
  rw [List.getElem?_set_ne (Ne.symm j3)]
  by_cases j4 : j = a
  · subst j4
    rw [e1, List.getElem?_set_self (by omega), hx0]
  rw [List.getElem?_set_ne (Ne.symm j4), exchangePair_getElem?_of_ne _ j4 j3 j2 j1]

theorem getElem_lt_of_forall {mem : List Nat} (hv : ∀ x ∈ mem, x < 65536) {i : Nat}
    (h : i < mem.length) : mem[i] < 65536 := hv _ (List.getElem_mem h)

theorem arm_bitreversal_16_words_eq {mem : List Nat} {o9 o8 o2 o12 h9 h8 h2 h12 : Nat}
    (hv : ∀ x ∈ mem, x < 65536)
    (a9 : o9 % 4 = 0) (a8 : o8 % 4 = 0) (a2 : o2 % 4 = 0) (a12 : o12 % 4 = 0)
    (e9 : o9 / 2 = h9) (e8 : o8 / 2 = h8) (e2 : o2 / 2 = h2) (e12 : o12 / 2 = h12)
    (r9 : h9 + 1 < mem.length) (r8 : h8 + 1 < mem.length) (r2 : h2 + 1 < mem.length)
    (r12 : h12 + 1 < mem.length) (d98 : BlockDisj h9 h8) (d122 : BlockDisj h12 h2)
    (d912 : BlockDisj h9 h12) (d92 : BlockDisj h9 h2) (d812 : BlockDisj h8 h12)
    (d82 : BlockDisj h8 h2) :
    arm_bitreversal_16_words mem o9 o8 o2 o12
      = some (exchangePair (exchangePair mem h9 h8) h12 h2) := by
  have b0 : ∀ {i : Nat} (h : i < mem.length), mem[i] < 65536 := fun h =>
    getElem_lt_of_forall hv h
  have q9 : h9 < mem.length := Nat.lt_of_succ_lt r9
  have q8 : h8 < mem.length := Nat.lt_of_succ_lt r8
  have q2 : h2 < mem.length := Nat.lt_of_succ_lt r2
  have q12 : h12 < mem.length := Nat.lt_of_succ_lt r12
  have l12 : h12 + 1 < (exchangePair mem h9 h8).length := by rwa [exchangePair_length]
  have l2 : h2 + 1 < (exchangePair mem h9 h8).length := by rwa [exchangePair_length]
  have n12 : h12 ≠ h9 ∧ h12 ≠ h9 + 1 ∧ h12 ≠ h8 ∧ h12 ≠ h8 + 1 ∧
      h12 + 1 ≠ h9 ∧ h12 + 1 ≠ h9 + 1 ∧ h12 + 1 ≠ h8 ∧ h12 + 1 ≠ h8 + 1 := by
    unfold BlockDisj at d912 d812
    omega
  have n2 : h2 ≠ h9 ∧ h2 ≠ h9 + 1 ∧ h2 ≠ h8 ∧ h2 ≠ h8 + 1 ∧
      h2 + 1 ≠ h9 ∧ h2 + 1 ≠ h9 + 1 ∧ h2 + 1 ≠ h8 ∧ h2 + 1 ≠ h8 + 1 := by
    unfold BlockDisj at d92 d82
    omega
  have s1 := set_word_eq_exchangePair r9 r8 d98 (List.getElem?_eq_getElem q8)
    (List.getElem?_eq_getElem r8) (List.getElem?_eq_getElem q9) (List.getElem?_eq_getElem r9)
  have s2 := set_word_eq_exchangePair l12 l2 d122
    ((exchangePair_getElem?_of_ne mem n2.1 n2.2.1 n2.2.2.1 n2.2.2.2.1).trans
      (List.getElem?_eq_getElem q2))
    ((exchangePair_getElem?_of_ne mem n2.2.2.2.2.1 n2.2.2.2.2.2.1 n2.2.2.2.2.2.2.1
      n2.2.2.2.2.2.2.2).trans (List.getElem?_eq_getElem r2))
    ((exchangePair_getElem?_of_ne mem n12.1 n12.2.1 n12.2.2.1 n12.2.2.2.1).trans
      (List.getElem?_eq_getElem q12))
    ((exchangePair_getElem?_of_ne mem n12.2.2.2.2.1 n12.2.2.2.2.2.1 n12.2.2.2.2.2.2.1
      n12.2.2.2.2.2.2.2).trans (List.getElem?_eq_getElem r12))
  rw [← s2, ← s1]
  have z9 : (o9 + 0) / 2 = h9 := e9
  have z8 : (o8 + 0) / 2 = h8 := e8
  have z2 : (o2 + 0) / 2 = h2 := e2
  have z12 : (o12 + 0) / 2 = h12 := e12
  unfold arm_bitreversal_16_words
  rw [ldr16_eq (o := o9 + 0) a9 z9 r9, ldr16_eq (o := o8 + 0) a8 z8 r8,
    ldr16_eq (o := o2 + 0) a2 z2 r2, ldr16_eq (o := o12 + 0) a12 z12 r12]
  simp only [Option.bind_eq_bind, Option.some_bind]
  rw [str16_eq (o := o9 + 0) a9 z9 r9 (b0 q8) (b0 r8), Option.some_bind,
    str16_eq (o := o8 + 0) a8 z8 (by simpa using r8) (b0 q9) (b0 r9), Option.some_bind,
    str16_eq (o := o12 + 0) a12 z12 (by simpa using r12) (b0 q2) (b0 r2), Option.some_bind,
    str16_eq (o := o2 + 0) a2 z2 (by simpa using r2) (b0 q12) (b0 r12)]

theorem arm_bitreversal_16_body_eq {tab mem : List Nat} {j : Nat} (hj : j + 4 ≤ tab.length)
    (hv : ∀ x ∈ mem, x < 65536)
    (hal : ∀ i < tab.length, (tab.getD i 0 >>> 1) % 4 = 0)
    (hin : ∀ i < tab.length, idx16 (tab.getD i 0) + 1 < mem.length)
    (hdis : ∀ i < tab.length, ∀ k < tab.length, i ≠ k →
      BlockDisj (idx16 (tab.getD i 0)) (idx16 (tab.getD k 0))) :
    arm_bitreversal_16_body tab mem (2 + 2 * j)
      = some (exchangePairs idx16 ((tab.drop j).take 4) mem) := by
  have l0 : j < tab.length := by omega
  have l1 : j + 1 < tab.length := by omega
  have l2 : j + 2 < tab.length := by omega
  have l3 : j + 3 < tab.length := by omega
  have A0 := hal j l0
  have A1 := hal (j + 1) l1
  have A2 := hal (j + 2) l2
  have A3 := hal (j + 3) l3
  have R0 := hin j l0
  have R1 := hin (j + 1) l1
  have R2 := hin (j + 2) l2
  have R3 := hin (j + 3) l3
  have D01 := hdis j l0 (j + 1) l1 (by omega)
  have D02 := hdis j l0 (j + 2) l2 (by omega)
  have D03 := hdis j l0 (j + 3) l3 (by omega)
  have D12 := hdis (j + 1) l1 (j + 2) l2 (by omega)
  have D13 := hdis (j + 1) l1 (j + 3) l3 (by omega)
  have D23 := hdis (j + 2) l2 (j + 3) l3 (by omega)
  have D20 := hdis (j + 2) l2 j l0 (by omega)
  have D21 := hdis (j + 2) l2 (j + 1) l1 (by omega)
  have D30 := hdis (j + 3) l3 j l0 (by omega)
  have D31 := hdis (j + 3) l3 (j + 1) l1 (by omega)
  rw [getD_eq_getElem l0] at A0 R0 D01 D02 D03 D20 D30
  rw [getD_eq_getElem l1] at A1 R1 D01 D12 D13 D21 D31
  rw [getD_eq_getElem l2] at A2 R2 D02 D12 D23 D20 D21
  rw [getD_eq_getElem l3] at A3 R3 D03 D13 D23 D30 D31
  rw [take_drop_four hj, exchangePairs_cons_cons, exchangePairs_cons_cons, exchangePairs_nil,
    exchangePair_comm R0 R1 R2 R3 D02 D03 D12 D13]
  unfold arm_bitreversal_16_body
  rw [ldrh_eq l3 (by omega), ldrh_eq l2 (by omega), ldrh_eq l1 (by omega),
    ldrh_eq l0 (by omega)]
  simp only [Option.bind_eq_bind, Option.some_bind]
  exact arm_bitreversal_16_words_eq hv A2 A3 A1 A0 rfl rfl rfl rfl R2 R3 R1 R0 D23 D01 D20 D21
    D30 D31

theorem arm_bitreversal_16_baseline_body_eq {tab mem : List Nat} {j : Nat}
    (hj : j + 2 ≤ tab.length) (hv : ∀ x ∈ mem, x < 65536)
    (hal : ∀ i < tab.length, (tab.getD i 0 >>> 1) % 4 = 0)
    (hin : ∀ i < tab.length, idx16 (tab.getD i 0) + 1 < mem.length)
    (hdis : ∀ i < tab.length, ∀ k < tab.length, i ≠ k →
      BlockDisj (idx16 (tab.getD i 0)) (idx16 (tab.getD k 0))) :
    arm_bitreversal_16_baseline_body tab mem (0 + 2 * j)
      = some (exchangePairs idx16 ((tab.drop j).take 2) mem) := by
  have l0 : j < tab.length := by omega
  have l1 : j + 1 < tab.length := by omega
  have A0 := hal j l0
  have A1 := hal (j + 1) l1
  have R0 := hin j l0
  have R1 := hin (j + 1) l1
  have D01 := hdis j l0 (j + 1) l1 (by omega)
  rw [getD_eq_getElem l0] at A0 R0 D01
  rw [getD_eq_getElem l1] at A1 R1 D01
  have b0 : ∀ {i : Nat} (h : i < mem.length), mem[i] < 65536 := fun h =>
    getElem_lt_of_forall hv h
  have q0 : idx16 tab[j] < mem.length := Nat.lt_of_succ_lt R0
  have q1 : idx16 tab[j + 1] < mem.length := Nat.lt_of_succ_lt R1
  have s1 := set_word_eq_exchangePair R0 R1 D01 (List.getElem?_eq_getElem q1)
    (List.getElem?_eq_getElem R1) (List.getElem?_eq_getElem q0) (List.getElem?_eq_getElem R0)
  rw [take_drop_two hj, exchangePairs_cons_cons, exchangePairs_nil, ← s1]
  have z0 : (tab[j] >>> 1 + 0) / 2 = idx16 tab[j] := rfl
  have z1 : (tab[j + 1] >>> 1 + 0) / 2 = idx16 tab[j + 1] := rfl
  unfold arm_bitreversal_16_baseline_body
  rw [ldrh_eq l1 (by omega), ldrh_eq l0 (by omega)]
  simp only [Option.bind_eq_bind, Option.some_bind]
  rw [ldr16_eq (o := tab[j + 1] >>> 1 + 0) A1 z1 R1,
    ldr16_eq (o := tab[j] >>> 1 + 0) A0 z0 R0]
  simp only [Option.bind_eq_bind, Option.some_bind]
  rw [str16_eq (o := tab[j] >>> 1 + 0) A0 z0 R0 (b0 q1) (b0 R1), Option.some_bind,
    str16_eq (o := tab[j + 1] >>> 1 + 0) A1 z1 (by simpa using R1) (b0 q0) (b0 R0)]

theorem forall_lt_exchangePairs (idx : Nat → Nat) (t : List Nat) {mem : List Nat}
    (hv : ∀ x ∈ mem, x < 65536) : ∀ x ∈ exchangePairs idx t mem, x < 65536 :=
  fun x hx => hv x ((exchangePairs_perm idx t mem).mem_iff.mp hx)

/-- The default path of `arm_bitreversal_16` on a table whose length is a multiple
of 4. -/
theorem arm_bitreversal_16_eq {pSrc tab : List Nat} {len : Nat} (hlen : len = tab.length)
    (h16 : len < 65536) (h4 : len % 4 = 0) (hv : ∀ x ∈ pSrc, x < 65536)
    (hal : ∀ i < len, (tab.getD i 0 >>> 1) % 4 = 0)
    (hin : ∀ i < len, idx16 (tab.getD i 0) + 1 < pSrc.length)
    (hdis : ∀ i < len, ∀ k < len, i ≠ k →
      BlockDisj (idx16 (tab.getD i 0)) (idx16 (tab.getD k 0))) :
    arm_bitreversal_16 pSrc len tab = some (exchangePairs idx16 tab pSrc) := by
  subst hlen
  unfold arm_bitreversal_16
  by_cases h0 : 0 = tab.length
  · rw [if_pos h0, List.length_eq_zero.mp h0.symm, exchangePairs_nil]
  · rw [if_neg h0]
    have hc : ((tab.length + 1) % 2 ^ 32) >>> 2 = tab.length / 4 := by
      rw [Nat.mod_eq_of_lt (by omega), Nat.shiftRight_eq_div_pow]
      omega
    have key := asmLoop_eq (arm_bitreversal_16_body tab) 4 2 tab idx16
      (fun m => m.length = pSrc.length ∧ ∀ x ∈ m, x < 65536) (by decide)
      (fun j mem hj hm => arm_bitreversal_16_body_eq hj hm.2 hal
        (by rw [show mem.length = pSrc.length from hm.1]; exact hin) hdis)
      (fun t mem hm => ⟨(exchangePairs_length idx16 t mem).trans hm.1,
        forall_lt_exchangePairs idx16 t hm.2⟩)
      (tab.length / 4) (2 ^ 32) 0 pSrc (by omega) (by omega) (by omega) (by omega) ⟨rfl, hv⟩
    simp only [hc]
    rw [show (8 : Nat) = 2 * 4 from rfl, show (2 : Nat) = 2 + 2 * 0 from rfl, key,
      List.drop_zero, List.take_of_length_le (by omega)]

/-- The ARMv8-M Baseline path of `arm_bitreversal_16` on a table of even, positive
length. -/
theorem arm_bitreversal_16_baseline_eq {pSrc tab : List Nat} {len : Nat}
    (hlen : len = tab.length) (h16 : len < 65536) (h2 : len % 2 = 0) (hpos : 0 < len)
    (hv : ∀ x ∈ pSrc, x < 65536) (hal : ∀ i < len, (tab.getD i 0 >>> 1) % 4 = 0)
    (hin : ∀ i < len, idx16 (tab.getD i 0) + 1 < pSrc.length)
    (hdis : ∀ i < len, ∀ k < len, i ≠ k →
      BlockDisj (idx16 (tab.getD i 0)) (idx16 (tab.getD k 0))) :
    arm_bitreversal_16_baseline pSrc len tab = some (exchangePairs idx16 tab pSrc) := by
  subst hlen
  unfold arm_bitreversal_16_baseline
  have hc : ((tab.length + 1) % 2 ^ 32) >>> 1 = tab.length / 2 := by
    rw [Nat.mod_eq_of_lt (by omega), Nat.shiftRight_eq_div_pow]
    omega
  have key := asmLoop_eq (arm_bitreversal_16_baseline_body tab) 2 0 tab idx16
      (fun m => m.length = pSrc.length ∧ ∀ x ∈ m, x < 65536) (by decide)
    (fun j mem hj hm => arm_bitreversal_16_baseline_body_eq hj hm.2 hal
      (by rw [show mem.length = pSrc.length from hm.1]; exact hin) hdis)
    (fun t mem hm => ⟨(exchangePairs_length idx16 t mem).trans hm.1,
      forall_lt_exchangePairs idx16 t hm.2⟩)
    (tab.length / 2) (2 ^ 32) 0 pSrc (by omega) (by omega) (by omega) (by omega) ⟨rfl, hv⟩
  simp only [hc]
  rw [show (4 : Nat) = 2 * 2 from rfl, show (0 : Nat) = 0 + 2 * 0 from rfl, key,
    List.drop_zero, List.take_of_length_le (by omega)]

/-! ## The 32-bit variant: claims -/

/-- C6, as the specification states it, fails: with the table `[0, 8, 16, 24]` and a
buffer of 50 elements, an input that is valid for the reading of the specification (raw
value = sample index: the elements `2 * raw` and `2 * raw + 1` are inside the buffer and
the pairs are disjoint) and for the code, neither path of `arm_bitreversal_32` returns
the buffer in which the elements `2 * rawA`, `2 * rawA + 1` are exchanged with the
elements `2 * rawB`, `2 * rawB + 1`.  The code exchanges the words at the byte offsets
`rawA` and `rawB`: element 0 receives element 2, not element 16. -/
theorem arm_bitreversal_32_not_sample_index :
    (4 % 2 = 0 ∧ 4 = [0, 8, 16, 24].length ∧
      (∀ i < 4, specIdx32 ([0, 8, 16, 24].getD i 0) + 1 < (List.range 50).length) ∧
      (∀ i < 4, ∀ j < 4, i ≠ j → BlockDisj (specIdx32 ([0, 8, 16, 24].getD i 0))
        (specIdx32 ([0, 8, 16, 24].getD j 0)))) ∧
    arm_bitreversal_32 (List.range 50) 4 [0, 8, 16, 24]
      ≠ some (exchangePairs specIdx32 [0, 8, 16, 24] (List.range 50)) ∧
    arm_bitreversal_32_baseline (List.range 50) 4 [0, 8, 16, 24]
      ≠ some (exchangePairs specIdx32 [0, 8, 16, 24] (List.range 50)) ∧
    (arm_bitreversal_32 (List.range 50) 4 [0, 8, 16, 24]).map (fun buf => buf.take 8)
      = some [2, 3, 0, 1, 6, 7, 4, 5] ∧
    (arm_bitreversal_32_baseline (List.range 50) 4 [0, 8, 16, 24]).map (fun buf => buf.take 8)
      = some [2, 3, 0, 1, 6, 7, 4, 5] ∧
    (exchangePairs specIdx32 [0, 8, 16, 24] (List.range 50)).take 8
      = [16, 17, 2, 3, 4, 5, 6, 7] := by
  decide

/-- C6, amended: the 32-bit variant uses the raw table value as a byte offset from
`pSrc`, i.e. the word index is `raw / 4`.  For every buffer of 32-bit elements and every
table with `bitRevLen` even and equal to the table length, all addressed words (byte
offsets `raw` and `raw + 4`) aligned and inside the buffer and the words of different
entries pairwise disjoint, the default path (for `bitRevLen` a multiple of 4) and the
ARMv6-M / ARMv8-M Baseline path (for `bitRevLen > 0`) return the result of processing
the table pairs `(rawA, rawB)` in order, each pair exchanging `buffer[rawA / 4]` with
`buffer[rawB / 4]` and `buffer[rawA / 4 + 1]` with `buffer[rawB / 4 + 1]`; an element
outside all these blocks is not changed. -/
theorem arm_bitreversal_32_byte_offset (pSrc pBitRevTab : List Nat) (bitRevLen : Nat)
    (heven : bitRevLen % 2 = 0) (hlen : bitRevLen = pBitRevTab.length)
    (h16 : bitRevLen < 65536) (hal : ∀ i < bitRevLen, pBitRevTab.getD i 0 % 4 = 0)
    (hin : ∀ i < bitRevLen, idx32 (pBitRevTab.getD i 0) + 1 < pSrc.length)
    (hdis : ∀ i < bitRevLen, ∀ j < bitRevLen, i ≠ j →
      BlockDisj (idx32 (pBitRevTab.getD i 0)) (idx32 (pBitRevTab.getD j 0))) :
    (bitRevLen % 4 = 0 → arm_bitreversal_32 pSrc bitRevLen pBitRevTab
      = some (exchangePairs idx32 pBitRevTab pSrc)) ∧
    (0 < bitRevLen → arm_bitreversal_32_baseline pSrc bitRevLen pBitRevTab
      = some (exchangePairs idx32 pBitRevTab pSrc)) ∧
    ∀ j, (∀ i < bitRevLen, j ≠ idx32 (pBitRevTab.getD i 0) ∧
        j ≠ idx32 (pBitRevTab.getD i 0) + 1) →
      (exchangePairs idx32 pBitRevTab pSrc)[j]? = pSrc[j]? := by
  refine ⟨fun h4 => arm_bitreversal_32_eq hlen h16 h4 hal hin hdis,
    fun hpos => arm_bitreversal_32_baseline_eq hlen h16 heven hpos hal hin, ?_⟩
  intro j hj
  subst hlen
  exact exchangePairs_getElem?_of_ne idx32 j pBitRevTab pSrc
    (forall_mem_of_forall_index (P := fun r => j ≠ idx32 r ∧ j ≠ idx32 r + 1) hj)

theorem arm_bitreversal_32_byte_offset_witness :
    arm_bitreversal_32 [10, 11, 12, 13, 14, 15, 16, 17] 4 [0, 8, 16, 24]
      = some [12, 13, 10, 11, 16, 17, 14, 15] ∧
    arm_bitreversal_32_baseline [10, 11, 12, 13, 14, 15, 16, 17] 4 [0, 8, 16, 24]
      = some [12, 13, 10, 11, 16, 17, 14, 15] :=
  have h := arm_bitreversal_32_byte_offset [10, 11, 12, 13, 14, 15, 16, 17] [0, 8, 16, 24] 4
    (by decide) (by decide) (by decide) (by decide) (by decide) (by decide)
  ⟨(h.1 (by decide)).trans (by decide), (h.2.1 (by decide)).trans (by decide)⟩

/-! ## The 16-bit variant: claims -/

/-- C7, as the specification states it, fails.  With the table `[0, 8, 16, 24]` and the
buffer `0, ..., 12`, valid for the reading of the specification (the scalar positions
`raw >> 1` are `0, 4, 8, 12`, inside the buffer and distinct) and for the code, both
paths of `arm_bitreversal_16` return `2, 3, 0, 1, 6, 7, 4, 5, 8, ..., 12`: every table
entry moves the two adjacent elements of one 32-bit word at byte offset `raw >> 1`,
while single exchanges of the elements `rawA >> 1` and `rawB >> 1` give
`4, 1, 2, 3, 0, 5, 6, 7, 12, 9, 10, 11, 8`.  On the input of the specification, table
`[2, 8, 6, 12]`, neither path returns `0, 4, 2, 6, 1, 5, 3, 7`: the byte offsets 1 and 3
are no addresses of 16-bit elements. -/
theorem arm_bitreversal_16_not_scalar :
    (4 % 2 = 0 ∧ 4 = [0, 8, 16, 24].length ∧
      (∀ i < 4, [0, 8, 16, 24].getD i 0 >>> 1 < (List.range 13).length) ∧
      (∀ i < 4, ∀ j < 4, i ≠ j →
        [0, 8, 16, 24].getD i 0 >>> 1 ≠ [0, 8, 16, 24].getD j 0 >>> 1)) ∧
    arm_bitreversal_16 (List.range 13) 4 [0, 8, 16, 24]
      = some [2, 3, 0, 1, 6, 7, 4, 5, 8, 9, 10, 11, 12] ∧
    arm_bitreversal_16_baseline (List.range 13) 4 [0, 8, 16, 24]
      = some [2, 3, 0, 1, 6, 7, 4, 5, 8, 9, 10, 11, 12] ∧
    specScalar16 [0, 8, 16, 24] (List.range 13) = [4, 1, 2, 3, 0, 5, 6, 7, 12, 9, 10, 11, 8] ∧
    specScalar16 [2, 8, 6, 12] [0, 1, 2, 3, 4, 5, 6, 7] = [0, 4, 2, 6, 1, 5, 3, 7] ∧
    arm_bitreversal_16 [0, 1, 2, 3, 4, 5, 6, 7] 4 [2, 8, 6, 12]
      ≠ some [0, 4, 2, 6, 1, 5, 3, 7] ∧
    arm_bitreversal_16_baseline [0, 1, 2, 3, 4, 5, 6, 7] 4 [2, 8, 6, 12]
      ≠ some [0, 4, 2, 6, 1, 5, 3, 7] := by
  decide

/-- C7, amended: the 16-bit variant exchanges one 32-bit word, i.e. two adjacent 16-bit
elements, per table entry; the word of the raw value `raw` is at byte offset `raw >> 1`,
its first element has index `(raw >> 1) / 2`.  For every buffer of 16-bit elements
(values below `2 ^ 16`) and every table with `bitRevLen` even and equal to the table length, all byte offsets
`raw >> 1` word-aligned, all addressed elements inside the buffer and the blocks of
different entries pairwise disjoint, the default path (for `bitRevLen` a multiple of 4)
and the ARMv8-M Baseline path (for `bitRevLen > 0`) return the result of processing the
table pairs `(rawA, rawB)` in order, each pair exchanging the elements `a`, `a + 1` with
the elements `b`, `b + 1` for `a = (rawA >> 1) / 2`, `b = (rawB >> 1) / 2`; an element
outside all these blocks is not changed. -/
theorem arm_bitreversal_16_word_exchange (pSrc pBitRevTab : List Nat) (bitRevLen : Nat)
    (heven : bitRevLen % 2 = 0) (hlen : bitRevLen = pBitRevTab.length)
    (h16 : bitRevLen < 65536) (hv : ∀ x ∈ pSrc, x < 65536)
    (hal : ∀ i < bitRevLen, (pBitRevTab.getD i 0 >>> 1) % 4 = 0)
    (hin : ∀ i < bitRevLen, idx16 (pBitRevTab.getD i 0) + 1 < pSrc.length)
    (hdis : ∀ i < bitRevLen, ∀ j < bitRevLen, i ≠ j →
      BlockDisj (idx16 (pBitRevTab.getD i 0)) (idx16 (pBitRevTab.getD j 0))) :
    (bitRevLen % 4 = 0 → arm_bitreversal_16 pSrc bitRevLen pBitRevTab
      = some (exchangePairs idx16 pBitRevTab pSrc)) ∧
    (0 < bitRevLen → arm_bitreversal_16_baseline pSrc bitRevLen pBitRevTab
      = some (exchangePairs idx16 pBitRevTab pSrc)) ∧
    ∀ j, (∀ i < bitRevLen, j ≠ idx16 (pBitRevTab.getD i 0) ∧
        j ≠ idx16 (pBitRevTab.getD i 0) + 1) →
      (exchangePairs idx16 pBitRevTab pSrc)[j]? = pSrc[j]? := by
  refine ⟨fun h4 => arm_bitreversal_16_eq hlen h16 h4 hv hal hin hdis,
    fun hpos => arm_bitreversal_16_baseline_eq hlen h16 heven hpos hv hal hin hdis, ?_⟩
  intro j hj
  subst hlen
  exact exchangePairs_getElem?_of_ne idx16 j pBitRevTab pSrc
    (forall_mem_of_forall_index (P := fun r => j ≠ idx16 r ∧ j ≠ idx16 r + 1) hj)

theorem arm_bitreversal_16_word_exchange_witness :
    arm_bitreversal_16 [10, 11, 12, 13, 14, 15, 16, 17] 4 [0, 16, 8, 24]
      = some [14, 15, 16, 17, 10, 11, 12, 13] ∧
    arm_bitreversal_16_baseline [10, 11, 12, 13, 14, 15, 16, 17] 4 [0, 16, 8, 24]
      = some [14, 15, 16, 17, 10, 11, 12, 13] :=
  have h := arm_bitreversal_16_word_exchange [10, 11, 12, 13, 14, 15, 16, 17] [0, 16, 8, 24] 4
    (by decide) (by decide) (by decide) (by decide) (by decide) (by decide) (by decide)
  ⟨(h.1 (by decide)).trans (by decide), (h.2.1 (by decide)).trans (by decide)⟩

/-! ## The loop counter of the assembly paths -/

/-- C8, failing inputs.  On the table `[0, 8, 16, 24, 32, 40]` (`bitRevLen = 6`, valid:
aligned, in range, disjoint) the unrolled default path of `arm_bitreversal_32` runs its
body `(6 + 1) >> 2 = 1` time and leaves the pair `(32, 40)` alone, while the pair-by-pair
algorithm, and the ARMv6-M / ARMv8-M Baseline path, exchange it.  On the table `[0, 8]`
(`bitRevLen = 2`) the counter starts at `(2 + 1) >> 2 = 0`, the body is run before the
counter is tested and reads the table entries 3 and 2, outside the table: the first
pass of the body is already `none`. -/
theorem arm_bitreversal_32_unrolled_diverges :
    (6 % 2 = 0 ∧ 6 = [0, 8, 16, 24, 32, 40].length ∧
      (∀ i < 6, [0, 8, 16, 24, 32, 40].getD i 0 % 4 = 0) ∧
      (∀ i < 6, idx32 ([0, 8, 16, 24, 32, 40].getD i 0) + 1 < (List.range 12).length) ∧
      (∀ i < 6, ∀ j < 6, i ≠ j → BlockDisj (idx32 ([0, 8, 16, 24, 32, 40].getD i 0))
        (idx32 ([0, 8, 16, 24, 32, 40].getD j 0)))) ∧
    arm_bitreversal_32 (List.range 12) 6 [0, 8, 16, 24, 32, 40]
      = some [2, 3, 0, 1, 6, 7, 4, 5, 8, 9, 10, 11] ∧
    exchangePairs idx32 [0, 8, 16, 24, 32, 40] (List.range 12)
      = [2, 3, 0, 1, 6, 7, 4, 5, 10, 11, 8, 9] ∧
    arm_bitreversal_32_baseline (List.range 12) 6 [0, 8, 16, 24, 32, 40]
      = some [2, 3, 0, 1, 6, 7, 4, 5, 10, 11, 8, 9] ∧
    arm_bitreversal_32_body [0, 8] [0, 1, 2, 3] 2 = none ∧
    arm_bitreversal_32 [0, 1, 2, 3] 2 [0, 8] = none ∧
    exchangePairs idx32 [0, 8] [0, 1, 2, 3] = [2, 3, 0, 1] ∧
    arm_bitreversal_32_baseline [0, 1, 2, 3] 2 [0, 8] = some [2, 3, 0, 1] := by
  decide

/-- C9, failing input.  The ARMv6-M / ARMv8-M Baseline path of `arm_bitreversal_32` and
the ARMv8-M Baseline path of `arm_bitreversal_16` have no guard: with `bitRevLen = 0`
the counter starts at `(0 + 1) >> 1 = 0`, the loop body is run (for every buffer and
table the call is the body followed by the loop with the counter `2 ^ 32 - 1`), and with
the table `[0, 8]` and the buffer `[1, 2, 3, 4]` this first pass of the body exchanges
the words and gives `[3, 4, 1, 2]`; the next pass reads past the table.  The default
paths return the buffer unchanged on the same input. -/
theorem baseline_paths_bitRevLen_zero :
    (∀ pSrc pBitRevTab : List Nat, arm_bitreversal_32_baseline pSrc 0 pBitRevTab
      = (arm_bitreversal_32_baseline_body pBitRevTab pSrc 0).bind
          (asmLoop (arm_bitreversal_32_baseline_body pBitRevTab) 4 (2 ^ 32 - 1) 4
            (2 ^ 32 - 1))) ∧
    (∀ pSrc pBitRevTab : List Nat, arm_bitreversal_16_baseline pSrc 0 pBitRevTab
      = (arm_bitreversal_16_baseline_body pBitRevTab pSrc 0).bind
          (asmLoop (arm_bitreversal_16_baseline_body pBitRevTab) 4 (2 ^ 32 - 1) 4
            (2 ^ 32 - 1))) ∧
    arm_bitreversal_32_baseline_body [0, 8] [1, 2, 3, 4] 0 = some [3, 4, 1, 2] ∧
    arm_bitreversal_32_baseline_body [0, 8] [3, 4, 1, 2] 4 = none ∧
    arm_bitreversal_32_baseline [1, 2, 3, 4] 0 [0, 8] = none ∧
    arm_bitreversal_32_baseline [1, 2, 3, 4] 0 [] = none ∧
    arm_bitreversal_32 [1, 2, 3, 4] 0 [0, 8] = some [1, 2, 3, 4] ∧
    arm_bitreversal_16_baseline_body [0, 8] [1, 2, 3, 4] 0 = some [3, 4, 1, 2] ∧
    arm_bitreversal_16_baseline_body [0, 8] [3, 4, 1, 2] 4 = none ∧
    arm_bitreversal_16_baseline [1, 2, 3, 4] 0 [0, 8] = none ∧
    arm_bitreversal_16_baseline [1, 2, 3, 4] 0 [] = none ∧
    arm_bitreversal_16 [1, 2, 3, 4] 0 [0, 8] = some [1, 2, 3, 4] := by
  refine ⟨fun pSrc pBitRevTab => ?_, fun pSrc pBitRevTab => ?_, by decide, by decide,
    by decide, by decide, by decide, by decide, by decide, by decide, by decide, by decide⟩
  · have h := asmLoop_counter_zero (arm_bitreversal_32_baseline_body pBitRevTab) 4
      (2 ^ 32 - 1) 0 pSrc
    have e : (2 : Nat) ^ 32 - 1 + 1 = 2 ^ 32 := by norm_num
    rw [e, Nat.zero_add] at h
    exact h
  · have h := asmLoop_counter_zero (arm_bitreversal_16_baseline_body pBitRevTab) 4
      (2 ^ 32 - 1) 0 pSrc
    have e : (2 : Nat) ^ 32 - 1 + 1 = 2 ^ 32 := by norm_num
    rw [e, Nat.zero_add] at h
    exact h

/-- C10, failing input.  The table `[0, 8]` with `bitRevLen = 2` and the buffer
`[1, 2, 3, 4]` are valid (even length equal to the table length, aligned words inside the
buffer, disjoint), but the default paths of `arm_bitreversal_32` and `arm_bitreversal_16`
start their counter at `(2 + 1) >> 2 = 0` and run the unrolled body, which reads the
table entries 3 and 2, outside the table: the first call does not return a buffer, so
two calls do not restore the buffer. -/
theorem default_paths_bitRevLen_two :
    (2 % 2 = 0 ∧ 2 = [0, 8].length ∧
      (∀ i < 2, [0, 8].getD i 0 % 4 = 0 ∧ ([0, 8].getD i 0 >>> 1) % 4 = 0) ∧
      (∀ i < 2, idx32 ([0, 8].getD i 0) + 1 < [1, 2, 3, 4].length ∧
        idx16 ([0, 8].getD i 0) + 1 < [1, 2, 3, 4].length) ∧
      (∀ i < 2, ∀ j < 2, i ≠ j →
        BlockDisj (idx32 ([0, 8].getD i 0)) (idx32 ([0, 8].getD j 0)) ∧
        BlockDisj (idx16 ([0, 8].getD i 0)) (idx16 ([0, 8].getD j 0)))) ∧
    arm_bitreversal_32_body [0, 8] [1, 2, 3, 4] 2 = none ∧
    arm_bitreversal_16_body [0, 8] [1, 2, 3, 4] 2 = none ∧
    arm_bitreversal_32 [1, 2, 3, 4] 2 [0, 8] = none ∧
    (arm_bitreversal_32 [1, 2, 3, 4] 2 [0, 8]).bind
      (fun buf => arm_bitreversal_32 buf 2 [0, 8]) ≠ some [1, 2, 3, 4] ∧
    arm_bitreversal_16 [1, 2, 3, 4] 2 [0, 8] = none ∧
    (arm_bitreversal_16 [1, 2, 3, 4] 2 [0, 8]).bind
      (fun buf => arm_bitreversal_16 buf 2 [0, 8]) ≠ some [1, 2, 3, 4] := by
  decide

/-! ## Access safety, frame and agreement of the variants -/

theorem forall_mem_take_of_forall_index {t : List Nat} {len : Nat} {P : Nat → Prop}
    (h : ∀ i < len, P (t.getD i 0)) (hlen : len ≤ t.length) : ∀ r ∈ t.take len, P r := by
  intro r hr
  obtain ⟨i, hi, rfl⟩ := List.mem_iff_getElem.mp hr
  have hi1 : i < len := by
    rw [List.length_take] at hi
    omega
  have := h i hi1
  rwa [getD_eq_getElem (by omega), ← List.getElem_take] at this

/-- C11: access safety of the 64-bit variant under the table invariants.  For a buffer
of `N` elements and a table with `bitRevLen` even and equal to the table length and
every normalised value `table[i] >> 2` in `[0, N/2)`, the call returns a buffer: every
table read (at `i` and `i + 1`) is inside the table and every buffer access (at `a`,
`a + 1`, `b`, `b + 1`) is below `N`, because each access outside an object makes the
run `none`. -/
theorem arm_bitreversal_64_access_safe (pSrc pBitRevTab : List Nat) (bitRevLen : Nat)
    (heven : bitRevLen % 2 = 0) (hlen : bitRevLen = pBitRevTab.length)
    (hnorm : ∀ i < bitRevLen, idx64 (pBitRevTab.getD i 0) < pSrc.length / 2) :
    (arm_bitreversal_64 pSrc bitRevLen pBitRevTab).isSome = true ∧
    (∀ i < bitRevLen, i < pBitRevTab.length ∧
      idx64 (pBitRevTab.getD i 0) + 1 < pSrc.length) ∧
    ∀ i < bitRevLen, i % 2 = 0 → ∀ buf : List Nat, buf.length = pSrc.length →
      (arm_bitreversal_64_body buf pBitRevTab i).isSome = true := by
  have hin : ∀ i < bitRevLen, idx64 (pBitRevTab.getD i 0) + 1 < pSrc.length := by
    intro i hi
    have := hnorm i hi
    omega
  refine ⟨?_, fun i hi => ⟨by omega, hin i hi⟩, ?_⟩
  · unfold arm_bitreversal_64
    rw [arm_bitreversal_64_loop_eq (by omega) heven bitRevLen 0 pSrc rfl (by omega) hin]
    rfl
  · intro i hi hi2 buf hbuf
    rw [arm_bitreversal_64_body_eq (by omega) (by rw [hbuf]; exact hin i hi)
      (by rw [hbuf]; exact hin (i + 1) (by omega))]
    rfl

theorem arm_bitreversal_64_access_safe_witness :
    (arm_bitreversal_64 (List.range 16) 4 [8, 16, 24, 4]).isSome = true ∧
    (∀ i < 4, i < [8, 16, 24, 4].length ∧
      idx64 ([8, 16, 24, 4].getD i 0) + 1 < (List.range 16).length) ∧
    ∀ i < 4, i % 2 = 0 → ∀ buf : List Nat, buf.length = (List.range 16).length →
      (arm_bitreversal_64_body buf [8, 16, 24, 4] i).isSome = true :=
  arm_bitreversal_64_access_safe (List.range 16) [8, 16, 24, 4] 4 (by decide) (by decide)
    (by decide)

theorem idx32_eq_idx64 : idx32 = idx64 := by
  funext raw
  unfold idx32 idx64
  rw [Nat.shiftRight_eq_div_pow]

theorem idx16_eq_idx64 : idx16 = idx64 := by
  funext raw
  unfold idx16 idx64
  rw [Nat.shiftRight_eq_div_pow, Nat.shiftRight_eq_div_pow]
  omega

/-- C12: under one shared table the three variants apply the same element-index
exchanges.  For a table whose raw values are multiples of 8, with `bitRevLen` a positive
multiple of 4 equal to the table length and entries that address pairwise disjoint
blocks inside the buffer, the default path of `arm_bitreversal_32` (on a buffer of
32-bit elements) and the default path of `arm_bitreversal_16` (on a buffer of 16-bit
elements, values below `2 ^ 16`) return the buffer that the algorithm of
`arm_bitreversal_64` returns on the same elements: for each pair `(rawA, rawB)` the
elements `a = rawA >> 2` and `b = rawB >> 2` are exchanged and the elements `a + 1` and
`b + 1` are exchanged; `arm_bitreversal_16` moves two adjacent elements per entry. -/
theorem variants_same_exchanges (buf32 buf16 pBitRevTab : List Nat) (bitRevLen : Nat)
    (hlen : bitRevLen = pBitRevTab.length) (h4 : bitRevLen % 4 = 0) (hpos : 0 < bitRevLen)
    (h16 : bitRevLen < 65536) (h8 : ∀ i < bitRevLen, pBitRevTab.getD i 0 % 8 = 0)
    (hin32 : ∀ i < bitRevLen, idx64 (pBitRevTab.getD i 0) + 1 < buf32.length)
    (hin16 : ∀ i < bitRevLen, idx64 (pBitRevTab.getD i 0) + 1 < buf16.length)
    (hv : ∀ x ∈ buf16, x < 65536)
    (hdis : ∀ i < bitRevLen, ∀ j < bitRevLen, i ≠ j →
      BlockDisj (idx64 (pBitRevTab.getD i 0)) (idx64 (pBitRevTab.getD j 0))) :
    arm_bitreversal_32 buf32 bitRevLen pBitRevTab
      = some (exchangePairs idx64 pBitRevTab buf32) ∧
    arm_bitreversal_32 buf32 bitRevLen pBitRevTab
      = arm_bitreversal_64 buf32 bitRevLen pBitRevTab ∧
    arm_bitreversal_16 buf16 bitRevLen pBitRevTab
      = some (exchangePairs idx64 pBitRevTab buf16) ∧
    arm_bitreversal_16 buf16 bitRevLen pBitRevTab
      = arm_bitreversal_64 buf16 bitRevLen pBitRevTab := by
  have heven : bitRevLen % 2 = 0 := by omega
  have hal32 : ∀ i < bitRevLen, pBitRevTab.getD i 0 % 4 = 0 := fun i hi => by
    have := h8 i hi
    omega
  have hal16 : ∀ i < bitRevLen, (pBitRevTab.getD i 0 >>> 1) % 4 = 0 := fun i hi => by
    have := h8 i hi
    rw [Nat.shiftRight_eq_div_pow]
    omega
  have e32 : arm_bitreversal_32 buf32 bitRevLen pBitRevTab
      = some (exchangePairs idx32 pBitRevTab buf32) := arm_bitreversal_32_eq hlen h16 h4 hal32
    (by rw [idx32_eq_idx64]; exact hin32) (by rw [idx32_eq_idx64]; exact hdis)
  have e16 : arm_bitreversal_16 buf16 bitRevLen pBitRevTab
      = some (exchangePairs idx16 pBitRevTab buf16) := arm_bitreversal_16_eq hlen h16 h4 hv hal16
    (by rw [idx16_eq_idx64]; exact hin16) (by rw [idx16_eq_idx64]; exact hdis)
  rw [idx32_eq_idx64] at e32
  rw [idx16_eq_idx64] at e16
  have e64 : ∀ buf : List Nat, (∀ i < bitRevLen, idx64 (pBitRevTab.getD i 0) + 1 < buf.length) →
      arm_bitreversal_64 buf bitRevLen pBitRevTab
        = some (exchangePairs idx64 pBitRevTab buf) := by
    intro buf hin
    unfold arm_bitreversal_64
    rw [arm_bitreversal_64_loop_eq (by omega) heven bitRevLen 0 buf rfl (by omega) hin,
      List.drop_zero, List.take_of_length_le (by omega)]
  exact ⟨e32, by rw [e32, e64 buf32 hin32], e16, by rw [e16, e64 buf16 hin16]⟩

theorem variants_same_exchanges_witness :
    arm_bitreversal_32 [10, 11, 12, 13, 14, 15, 16, 17] 4 [0, 16, 8, 24]
      = some (exchangePairs idx64 [0, 16, 8, 24] [10, 11, 12, 13, 14, 15, 16, 17]) ∧
    arm_bitreversal_32 [10, 11, 12, 13, 14, 15, 16, 17] 4 [0, 16, 8, 24]
      = arm_bitreversal_64 [10, 11, 12, 13, 14, 15, 16, 17] 4 [0, 16, 8, 24] ∧
    arm_bitreversal_16 [20, 21, 22, 23, 24, 25, 26, 27] 4 [0, 16, 8, 24]
      = some (exchangePairs idx64 [0, 16, 8, 24] [20, 21, 22, 23, 24, 25, 26, 27]) ∧
    arm_bitreversal_16 [20, 21, 22, 23, 24, 25, 26, 27] 4 [0, 16, 8, 24]
      = arm_bitreversal_64 [20, 21, 22, 23, 24, 25, 26, 27] 4 [0, 16, 8, 24] :=
  variants_same_exchanges [10, 11, 12, 13, 14, 15, 16, 17] [20, 21, 22, 23, 24, 25, 26, 27]
    [0, 16, 8, 24] 4 (by decide) (by decide) (by decide) (by decide) (by decide) (by decide)
    (by decide) (by decide) (by decide)

/-- C13: the two assembly paths of `arm_bitreversal_32` agree on tables whose length is
a positive multiple of 4.  For `bitRevLen` a positive multiple of 4 equal to the table
length, all addressed words (byte offsets `raw` and `raw + 4`) aligned and inside the
buffer and the words of different entries pairwise disjoint, the unrolled default path
and the one-pair-per-pass ARMv6-M / ARMv8-M Baseline path return the same buffer. -/
theorem arm_bitreversal_32_paths_agree (pSrc pBitRevTab : List Nat) (bitRevLen : Nat)
    (hlen : bitRevLen = pBitRevTab.length) (h4 : bitRevLen % 4 = 0) (hpos : 0 < bitRevLen)
    (h16 : bitRevLen < 65536) (hal : ∀ i < bitRevLen, pBitRevTab.getD i 0 % 4 = 0)
    (hin : ∀ i < bitRevLen, idx32 (pBitRevTab.getD i 0) + 1 < pSrc.length)
    (hdis : ∀ i < bitRevLen, ∀ j < bitRevLen, i ≠ j →
      BlockDisj (idx32 (pBitRevTab.getD i 0)) (idx32 (pBitRevTab.getD j 0))) :
    arm_bitreversal_32 pSrc bitRevLen pBitRevTab
      = arm_bitreversal_32_baseline pSrc bitRevLen pBitRevTab ∧
    (arm_bitreversal_32 pSrc bitRevLen pBitRevTab).isSome = true := by
  rw [arm_bitreversal_32_eq hlen h16 h4 hal hin hdis,
    arm_bitreversal_32_baseline_eq hlen h16 (by omega) hpos hal hin]
  exact ⟨rfl, rfl⟩

theorem arm_bitreversal_32_paths_agree_witness :
    arm_bitreversal_32 [10, 11, 12, 13, 14, 15, 16, 17] 4 [0, 16, 8, 24]
      = arm_bitreversal_32_baseline [10, 11, 12, 13, 14, 15, 16, 17] 4 [0, 16, 8, 24] ∧
    (arm_bitreversal_32 [10, 11, 12, 13, 14, 15, 16, 17] 4 [0, 16, 8, 24]).isSome = true :=
  arm_bitreversal_32_paths_agree [10, 11, 12, 13, 14, 15, 16, 17] [0, 16, 8, 24] 4
    (by decide) (by decide) (by decide) (by decide) (by decide) (by decide) (by decide)

/-- C15: frame of the 64-bit variant.  For an even `bitRevLen` not exceeding the table
length with all indices `table[i] >> 2` and `(table[i] >> 2) + 1` (`i < bitRevLen`)
inside the buffer, the call returns a buffer of the same length in which every element
whose index differs from `table[i] >> 2` and from `(table[i] >> 2) + 1` for all
`i < bitRevLen` has its value from before the call; the table is the one passed in. -/
theorem arm_bitreversal_64_frame (pSrc pBitRevTab : List Nat) (bitRevLen : Nat)
    (heven : bitRevLen % 2 = 0) (hlen : bitRevLen ≤ pBitRevTab.length)
    (hin : ∀ i < bitRevLen, idx64 (pBitRevTab.getD i 0) + 1 < pSrc.length) :
    ∃ buf, arm_bitreversal_64 pSrc bitRevLen pBitRevTab = some buf ∧
      buf.length = pSrc.length ∧
      (∀ j, (∀ i < bitRevLen, j ≠ idx64 (pBitRevTab.getD i 0) ∧
        j ≠ idx64 (pBitRevTab.getD i 0) + 1) → buf[j]? = pSrc[j]?) ∧
      arm_bitreversal_64_objects pSrc bitRevLen pBitRevTab = some (buf, pBitRevTab) := by
  have h : arm_bitreversal_64 pSrc bitRevLen pBitRevTab
      = some (exchangePairs idx64 (pBitRevTab.take bitRevLen) pSrc) := by
    unfold arm_bitreversal_64
    rw [arm_bitreversal_64_loop_eq hlen heven bitRevLen 0 pSrc rfl (by omega) hin,
      List.drop_zero]
  refine ⟨_, h, exchangePairs_length _ _ _, ?_, ?_⟩
  · intro j hj
    exact exchangePairs_getElem?_of_ne idx64 j _ pSrc
      (forall_mem_take_of_forall_index (P := fun r => j ≠ idx64 r ∧ j ≠ idx64 r + 1) hj hlen)
  · unfold arm_bitreversal_64_objects
    rw [h]
    rfl

theorem arm_bitreversal_64_frame_witness :
    ∃ buf, arm_bitreversal_64 (List.range 16) 4 [8, 32, 24, 48, 0] = some buf ∧
      buf.length = (List.range 16).length ∧
      (∀ j, (∀ i < 4, j ≠ idx64 ([8, 32, 24, 48, 0].getD i 0) ∧
        j ≠ idx64 ([8, 32, 24, 48, 0].getD i 0) + 1) → buf[j]? = (List.range 16)[j]?) ∧
      arm_bitreversal_64_objects (List.range 16) 4 [8, 32, 24, 48, 0]
        = some (buf, [8, 32, 24, 48, 0]) :=
  arm_bitreversal_64_frame (List.range 16) [8, 32, 24, 48, 0] 4 (by decide) (by decide)
    (by decide)

/-! ## The number of passes of the assembly loops -/

theorem asmLoop_unfold (body : List Nat → Nat → Option (List Nat)) (stride fuel r1 r3 : Nat)
    (mem : List Nat) :
    asmLoop body stride (fuel + 1) r1 r3 mem
      = (body mem r1).bind fun m =>
          if (r3 + 2 ^ 32 - 1) % 2 ^ 32 ≠ 0 then
            asmLoop body stride fuel (r1 + stride) ((r3 + 2 ^ 32 - 1) % 2 ^ 32) m
          else some m := by
  rw [asmLoop]

theorem passes_succ (body : List Nat → Nat → Option (List Nat)) (stride n r1 : Nat)
    (mem : List Nat) :
    passes body stride (n + 1) r1 mem
      = (body mem r1).bind (passes body stride n (r1 + stride)) := by
  rw [passes]

/-- The counter after `SUBS r3,r3,#1`: zero wraps to `2 ^ 32 - 1`. -/
theorem counter_pred (r3 : Nat) (h32 : r3 < 2 ^ 32) :
    (r3 + 2 ^ 32 - 1) % 2 ^ 32 = if r3 = 0 then 2 ^ 32 - 1 else r3 - 1 := by
  split
  · next h =>
    subst h
    norm_num
  · next h =>
    rw [show r3 + 2 ^ 32 - 1 = (r3 - 1) + 2 ^ 32 by omega, Nat.add_mod_right,
      Nat.mod_eq_of_lt (by omega)]

theorem passCount_le (r3 : Nat) (h32 : r3 < 2 ^ 32) : passCount r3 ≤ 2 ^ 32 := by
  unfold passCount
  split <;> omega

/-- A loop entered with the counter `r3` and enough fuel is the composition of
`passCount r3` passes of its body, whatever the body is. -/
theorem asmLoop_eq_passes (body : List Nat → Nat → Option (List Nat)) (stride : Nat)
    (n : Nat) :
    ∀ (fuel r1 r3 : Nat) (mem : List Nat), r3 < 2 ^ 32 → n = passCount r3 → n ≤ fuel →
      asmLoop body stride fuel r1 r3 mem = passes body stride n r1 mem := by
  induction n with
  | zero =>
    intro fuel r1 r3 mem _ hn _
    unfold passCount at hn
    split at hn <;> omega
  | succ n ih =>
    intro fuel r1 r3 mem h32 hn hf
    obtain ⟨f, rfl⟩ : ∃ f, fuel = f + 1 := ⟨fuel - 1, by omega⟩
    rw [asmLoop_unfold, passes_succ, counter_pred r3 h32]
    cases body mem r1 with
    | none => simp only [Option.none_bind]
    | some m =>
      simp only [Option.some_bind]
      unfold passCount at hn
      by_cases h0 : r3 = 0
      · rw [if_pos h0] at hn
        rw [if_pos h0, if_pos (by omega)]
        exact ih f (r1 + stride) (2 ^ 32 - 1) m (by omega)
          (by unfold passCount; rw [if_neg (by omega)]; omega) (by omega)
      · rw [if_neg h0] at hn
        rw [if_neg h0]
        by_cases h1 : r3 - 1 = 0
        · have hn0 : n = 0 := by omega
          subst hn0
          rw [if_neg (by omega), passes]
        · rw [if_pos h1]
          exact ih f (r1 + stride) (r3 - 1) m (by omega)
            (by unfold passCount; rw [if_neg h1]; omega) (by omega)

/-- The recording body is run `n` times by `n` passes, pass `k` with the table pointer
`r1 + stride * k`. -/
theorem passes_recordPass (stride : Nat) :
    ∀ (n r1 : Nat) (trace : List Nat),
      passes recordPass stride n r1 trace
        = some (trace ++ (List.range n).map (fun k => r1 + stride * k)) := by
  intro n
  induction n with
  | zero =>
    intro r1 trace
    rw [passes, List.range_zero, List.map_nil, List.append_nil]
  | succ n ih =>
    intro r1 trace
    rw [passes_succ, recordPass, Option.some_bind, ih, List.range_succ_eq_map, List.map_cons,
      List.map_map, List.append_assoc, List.singleton_append, Nat.mul_zero, Nat.add_zero]
    congr 3
    apply List.map_congr_left
    intro k _
    simp only [Function.comp_apply, Nat.mul_succ]
    omega

/-- C14: loop count of the unrolled default paths.  For a 16-bit `bitRevLen ≥ 1` the
32-bit counter of the default paths of `arm_bitreversal_32` and `arm_bitreversal_16` is
initialised to `c = (bitRevLen + 1) >> 2`, and each of the two functions is the
composition of `passCount c` passes of its loop body, pass `k` with the table pointer at
byte offset `2 + 8 * k` (it reads the table entries `4 * k, ..., 4 * k + 3`): the loop
run with a body that only records its passes records exactly these `passCount c`
pointers.  `passCount c` is `c` when `c ≥ 1` and `2 ^ 32` when `c = 0`, which is the case
for `bitRevLen = 1` and `bitRevLen = 2` only.  Among even `bitRevLen`, the passes process
`bitRevLen / 2` pairs, two per pass, if and only if `bitRevLen` is a multiple of 4. -/
theorem default_paths_pass_count (pSrc pBitRevTab : List Nat) (bitRevLen : Nat)
    (h1 : 1 ≤ bitRevLen) (h16 : bitRevLen < 65536) :
    ((bitRevLen + 1) % 2 ^ 32) >>> 2 = (bitRevLen + 1) / 4 ∧
    arm_bitreversal_32 pSrc bitRevLen pBitRevTab
      = passes (arm_bitreversal_32_body pBitRevTab) 8 (passCount ((bitRevLen + 1) / 4)) 2
          pSrc ∧
    arm_bitreversal_16 pSrc bitRevLen pBitRevTab
      = passes (arm_bitreversal_16_body pBitRevTab) 8 (passCount ((bitRevLen + 1) / 4)) 2
          pSrc ∧
    asmLoop recordPass 8 (2 ^ 32) 2 ((bitRevLen + 1) / 4) []
      = some ((List.range (passCount ((bitRevLen + 1) / 4))).map (fun k => 2 + 8 * k)) ∧
    (1 ≤ (bitRevLen + 1) / 4 → passCount ((bitRevLen + 1) / 4) = (bitRevLen + 1) / 4) ∧
    ((bitRevLen + 1) / 4 = 0 → passCount ((bitRevLen + 1) / 4) = 2 ^ 32) ∧
    ((bitRevLen + 1) / 4 = 0 ↔ bitRevLen = 1 ∨ bitRevLen = 2) ∧
    (bitRevLen % 2 = 0 →
      (2 * passCount ((bitRevLen + 1) / 4) = bitRevLen / 2 ↔ bitRevLen % 4 = 0)) := by
  have hc : ((bitRevLen + 1) % 2 ^ 32) >>> 2 = (bitRevLen + 1) / 4 := by
    rw [Nat.mod_eq_of_lt (by omega), Nat.shiftRight_eq_div_pow]
  have hc32 : (bitRevLen + 1) / 4 < 2 ^ 32 := by omega
  have hle := passCount_le _ hc32
  have h0 : ¬ 0 = bitRevLen := by omega
  refine ⟨hc, ?_, ?_, ?_, ?_, ?_, ?_, ?_⟩
  · unfold arm_bitreversal_32
    rw [if_neg h0]
    simp only [hc]
    exact asmLoop_eq_passes _ 8 _ (2 ^ 32) 2 _ pSrc hc32 rfl hle
  · unfold arm_bitreversal_16
    rw [if_neg h0]
    simp only [hc]
    exact asmLoop_eq_passes _ 8 _ (2 ^ 32) 2 _ pSrc hc32 rfl hle
  · rw [asmLoop_eq_passes recordPass 8 _ (2 ^ 32) 2 _ [] hc32 rfl hle, passes_recordPass,
      List.nil_append]
  · intro h
    unfold passCount
    rw [if_neg (by omega)]
  · intro h
    unfold passCount
    rw [if_pos h]
  · omega
  · intro heven
    unfold passCount
    split <;> omega

theorem default_paths_pass_count_witness :
    ((6 + 1) % 2 ^ 32) >>> 2 = (6 + 1) / 4 ∧
    arm_bitreversal_32 (List.range 12) 6 [0, 8, 16, 24, 32, 40]
      = passes (arm_bitreversal_32_body [0, 8, 16, 24, 32, 40]) 8 (passCount ((6 + 1) / 4)) 2
          (List.range 12) ∧
    arm_bitreversal_16 (List.range 12) 6 [0, 8, 16, 24, 32, 40]
      = passes (arm_bitreversal_16_body [0, 8, 16, 24, 32, 40]) 8 (passCount ((6 + 1) / 4)) 2
          (List.range 12) ∧
    asmLoop recordPass 8 (2 ^ 32) 2 ((6 + 1) / 4) []
      = some ((List.range (passCount ((6 + 1) / 4))).map (fun k => 2 + 8 * k)) ∧
    (1 ≤ (6 + 1) / 4 → passCount ((6 + 1) / 4) = (6 + 1) / 4) ∧
    ((6 + 1) / 4 = 0 → passCount ((6 + 1) / 4) = 2 ^ 32) ∧
    ((6 + 1) / 4 = 0 ↔ 6 = 1 ∨ 6 = 2) ∧
    (6 % 2 = 0 → (2 * passCount ((6 + 1) / 4) = 6 / 2 ↔ 6 % 4 = 0)) :=
  default_paths_pass_count (List.range 12) [0, 8, 16, 24, 32, 40] 6 (by decide) (by decide)

/-! ## Order of the pairs -/

theorem exchange_of_not_lt {l : List Nat} {a b : Nat} (h : ¬ (a < l.length ∧ b < l.length)) :
    exchange l a b = l := by
  unfold exchange
  split
  · next x y hx hy =>
    exact absurd ⟨(List.getElem?_eq_some.mp hx).1, (List.getElem?_eq_some.mp hy).1⟩ h
  · rfl

theorem exchange_symm_all (buf : List Nat) (a b : Nat) : exchange buf a b = exchange buf b a := by
  by_cases h : a < buf.length ∧ b < buf.length
  · exact exchange_symm h.1 h.2
  · rw [exchange_of_not_lt h, exchange_of_not_lt (fun h2 => h ⟨h2.2, h2.1⟩)]

theorem exchange_comm_all (buf : List Nat) {a b c d : Nat} (hac : a ≠ c) (had : a ≠ d)
    (hbc : b ≠ c) (hbd : b ≠ d) :
    exchange (exchange buf a b) c d = exchange (exchange buf c d) a b := by
  by_cases h1 : a < buf.length ∧ b < buf.length
  · by_cases h2 : c < buf.length ∧ d < buf.length
    · exact exchange_comm h1.1 h1.2 h2.1 h2.2 hac had hbc hbd
    · rw [exchange_of_not_lt (l := exchange buf a b) (by rw [exchange_length]; exact h2),
        exchange_of_not_lt h2]
  · rw [exchange_of_not_lt h1,
      exchange_of_not_lt (l := exchange buf c d) (by rw [exchange_length]; exact h1)]

theorem exchangePair_symm (buf : List Nat) (a b : Nat) :
    exchangePair buf a b = exchangePair buf b a := by
  unfold exchangePair
  rw [exchange_symm_all buf a b, exchange_symm_all _ (a + 1) (b + 1)]

theorem exchangePair_comm_all (buf : List Nat) {a b c d : Nat} (hac : BlockDisj a c)
    (had : BlockDisj a d) (hbc : BlockDisj b c) (hbd : BlockDisj b d) :
    exchangePair (exchangePair buf a b) c d = exchangePair (exchangePair buf c d) a b := by
  unfold BlockDisj at hac had hbc hbd
  unfold exchangePair
  rw [exchange_comm_all (exchange buf a b) (a := a + 1) (b := b + 1) (c := c) (d := d)
      (by omega) (by omega) (by omega) (by omega),
    exchange_comm_all buf (a := a) (b := b) (c := c) (d := d)
      (by omega) (by omega) (by omega) (by omega),
    exchange_comm_all (exchange (exchange buf c d) a b) (a := a + 1) (b := b + 1) (c := c + 1)
      (d := d + 1) (by omega) (by omega) (by omega) (by omega),
    exchange_comm_all (exchange buf c d) (a := a) (b := b) (c := c + 1) (d := d + 1)
      (by omega) (by omega) (by omega) (by omega)]

/-- The pair-by-pair algorithm as a fold over the pairs of the table. -/
theorem exchangePairs_eq_foldl (idx : Nat → Nat) :
    ∀ (t buf : List Nat), exchangePairs idx t buf
      = (rawPairs t).foldl (fun b p => exchangePair b (idx p.1) (idx p.2)) buf
  | [], _ => by simp [exchangePairs, rawPairs]
  | [_], _ => by simp [exchangePairs, rawPairs]
  | rawA :: rawB :: rest, buf => by
    rw [exchangePairs_cons_cons, rawPairs, List.foldl_cons]
    exact exchangePairs_eq_foldl idx rest _

theorem mem_of_mem_rawPairs : ∀ (t : List Nat) (p : Nat × Nat), p ∈ rawPairs t →
    p.1 ∈ t ∧ p.2 ∈ t
  | [], p, h => by simp [rawPairs] at h
  | [_], p, h => by simp [rawPairs] at h
  | rawA :: rawB :: rest, p, h => by
    rw [rawPairs, List.mem_cons] at h
    rcases h with rfl | h
    · simp
    · have := mem_of_mem_rawPairs rest p h
      simp [this.1, this.2]

theorem pairwise_rawPairs (idx : Nat → Nat) :
    ∀ (t : List Nat), (t.map idx).Pairwise BlockDisj → (rawPairs t).Pairwise (PairDisj idx)
  | [], _ => by simp [rawPairs]
  | [_], _ => by simp [rawPairs]
  | rawA :: rawB :: rest, hd => by
    simp only [List.map_cons, List.pairwise_cons, List.mem_cons, List.mem_map,
      forall_eq_or_imp, forall_exists_index, and_imp, forall_apply_eq_imp_iff₂] at hd
    obtain ⟨⟨_, hAr⟩, hBr, hrest⟩ := hd
    rw [rawPairs, List.pairwise_cons]
    refine ⟨fun q hq => ?_, pairwise_rawPairs idx rest hrest⟩
    have hm := mem_of_mem_rawPairs rest q hq
    exact ⟨hAr _ hm.1, hAr _ hm.2, hBr _ hm.1, hBr _ hm.2⟩

theorem pairDisj_symm (idx : Nat → Nat) : Symmetric (PairDisj idx) := by
  intro p q h
  unfold PairDisj BlockDisj at *
  omega

/-- Pairs with disjoint blocks can be processed in any order. -/
theorem foldl_exchangePair_perm (idx : Nat → Nat) {l₁ l₂ : List (Nat × Nat)}
    (hp : l₁.Perm l₂) (hd : l₁.Pairwise (PairDisj idx)) (buf : List Nat) :
    l₁.foldl (fun b p => exchangePair b (idx p.1) (idx p.2)) buf
      = l₂.foldl (fun b p => exchangePair b (idx p.1) (idx p.2)) buf := by
  apply List.Perm.foldl_eq' hp
  intro x hx y hy z
  by_cases hxy : x = y
  · rw [hxy]
  · have h := hd.forall (pairDisj_symm idx) hx hy hxy
    exact (exchangePair_comm_all z h.1 h.2.1 h.2.2.1 h.2.2.2)

/-- The two entries of a pair can be exchanged. -/
theorem foldl_exchangePair_swapped (idx : Nat → Nat) {l₁ l₂ : List (Nat × Nat)}
    (h : List.Forall₂ (fun p q => q = p ∨ q = (p.2, p.1)) l₁ l₂) :
    ∀ buf : List Nat, l₁.foldl (fun b p => exchangePair b (idx p.1) (idx p.2)) buf
      = l₂.foldl (fun b p => exchangePair b (idx p.1) (idx p.2)) buf := by
  induction h with
  | nil => intro buf; rfl
  | cons hpq _ ih =>
    intro buf
    rw [List.foldl_cons, List.foldl_cons]
    rcases hpq with rfl | rfl
    · exact ih _
    · rw [exchangePair_symm]
      exact ih _

/-- C16: order independence of the 64-bit variant on disjoint tables.  For two tables
of the same even length `bitRevLen` with in-range indices, the blocks `{a, a+1}` of the
entries of the first pairwise disjoint, and the second obtained from the first by
reordering its pairs and exchanging the two entries inside some pairs, the two calls of
`arm_bitreversal_64` return the same buffer. -/
theorem arm_bitreversal_64_order_independent (pSrc t₁ t₂ : List Nat) (bitRevLen : Nat)
    (heven : bitRevLen % 2 = 0) (hlen₁ : bitRevLen = t₁.length) (hlen₂ : bitRevLen = t₂.length)
    (hin₁ : ∀ i < bitRevLen, idx64 (t₁.getD i 0) + 1 < pSrc.length)
    (hin₂ : ∀ i < bitRevLen, idx64 (t₂.getD i 0) + 1 < pSrc.length)
    (hdis : ∀ i < bitRevLen, ∀ j < bitRevLen, i ≠ j →
      BlockDisj (idx64 (t₁.getD i 0)) (idx64 (t₁.getD j 0)))
    (hre : Rearranged t₁ t₂) :
    arm_bitreversal_64 pSrc bitRevLen t₁ = arm_bitreversal_64 pSrc bitRevLen t₂ ∧
    (arm_bitreversal_64 pSrc bitRevLen t₁).isSome = true := by
  have e₁ : arm_bitreversal_64 pSrc bitRevLen t₁ = some (exchangePairs idx64 t₁ pSrc) := by
    unfold arm_bitreversal_64
    rw [arm_bitreversal_64_loop_eq (by omega) heven bitRevLen 0 pSrc rfl (by omega) hin₁,
      List.drop_zero, List.take_of_length_le (by omega)]
  have e₂ : arm_bitreversal_64 pSrc bitRevLen t₂ = some (exchangePairs idx64 t₂ pSrc) := by
    unfold arm_bitreversal_64
    rw [arm_bitreversal_64_loop_eq (by omega) heven bitRevLen 0 pSrc rfl (by omega) hin₂,
      List.drop_zero, List.take_of_length_le (by omega)]
  obtain ⟨l, hperm, hswap⟩ := hre
  have hpw : (rawPairs t₁).Pairwise (PairDisj idx64) := by
    apply pairwise_rawPairs
    subst hlen₁
    exact pairwise_of_forall_index (fun i j hi hj hij => hdis i hi j hj hij)
  rw [e₁, e₂, exchangePairs_eq_foldl, exchangePairs_eq_foldl,
    foldl_exchangePair_perm idx64 hperm hpw, foldl_exchangePair_swapped idx64 hswap]
  exact ⟨rfl, rfl⟩

theorem arm_bitreversal_64_order_independent_witness :
    arm_bitreversal_64 (List.range 16) 4 [8, 32, 24, 48]
      = arm_bitreversal_64 (List.range 16) 4 [48, 24, 8, 32] ∧
    (arm_bitreversal_64 (List.range 16) 4 [8, 32, 24, 48]).isSome = true :=
  arm_bitreversal_64_order_independent (List.range 16) [8, 32, 24, 48] [48, 24, 8, 32] 4
    (by decide) (by decide) (by decide) (by decide) (by decide) (by decide)
    ⟨[(24, 48), (8, 32)], List.Perm.swap (24, 48) (8, 32) [],
      List.Forall₂.cons (Or.inr rfl) (List.Forall₂.cons (Or.inl rfl) List.Forall₂.nil)⟩

/-! ## Fuel

The results of the loops do not depend on the fuel once there is enough of it; the fuel
the functions pass, `bitRevLen` for the C loop and `2 ^ 32` for the assembly loops, is
enough. -/

theorem arm_bitreversal_64_loop_fuel (bitRevLen : Nat) (tab : List Nat) (extra fuel : Nat) :
    ∀ (i : Nat) (buf : List Nat), bitRevLen ≤ i + 2 * fuel →
      arm_bitreversal_64_loop bitRevLen tab (fuel + extra) i buf
        = arm_bitreversal_64_loop bitRevLen tab fuel i buf := by
  induction fuel with
  | zero =>
    intro i buf h
    have hi : ¬ i < bitRevLen := by omega
    rw [Nat.zero_add]
    cases extra with
    | zero => rfl
    | succ e => rw [arm_bitreversal_64_loop, arm_bitreversal_64_loop, if_neg hi, if_neg hi]
  | succ fuel ih =>
    intro i buf h
    rw [show fuel + 1 + extra = (fuel + extra) + 1 by omega, arm_bitreversal_64_loop,
      arm_bitreversal_64_loop]
    by_cases hi : i < bitRevLen
    · rw [if_pos hi, if_pos hi]
      cases arm_bitreversal_64_body buf tab i with
      | none => simp only [Option.none_bind]
      | some b =>
        simp only [Option.some_bind]
        exact ih (i + 2) b (by omega)
    · rw [if_neg hi, if_neg hi]

theorem asmLoop_fuel (body : List Nat → Nat → Option (List Nat)) (stride fuel₁ fuel₂ r1 r3 : Nat)
    (mem : List Nat) (h32 : r3 < 2 ^ 32) (h₁ : passCount r3 ≤ fuel₁)
    (h₂ : passCount r3 ≤ fuel₂) :
    asmLoop body stride fuel₁ r1 r3 mem = asmLoop body stride fuel₂ r1 r3 mem := by
  rw [asmLoop_eq_passes body stride _ fuel₁ r1 r3 mem h32 rfl h₁,
    asmLoop_eq_passes body stride _ fuel₂ r1 r3 mem h32 rfl h₂]

end BitReversal
